import Mathlib

/-!
Verification of the multi-terminal-orchestrator core against its design
specification.

The development shallowly embeds the TypeScript sources:

* `src/src/redis/RedisTaskQueue.ts` — the dependency/priority task queue,
  including the semantics of the Redis primitives it relies on
  (sorted sets ordered by score with lexicographic tie-break on the member
  string, plain sets, and hash/key storage);
* `src/src/tasks/RetryStrategy.ts` — the exponential-backoff retry policy;
* `src/src/domains/TaskRouter.ts` (found inside `RedisStateStore.ts` in this
  source drop) — the routing-strategy engine;
* `src/src/domains/strategies/RoundRobinStrategy.ts`;
* `src/src/agents/CoordinatorAgent.ts` — worker registry, task assignment and
  result intake.

Machine integers are modelled as `Int`/`Nat` (JavaScript numbers stay far from
2^53 here); JavaScript float arithmetic in the retry policy and success rate is
modelled over `ℚ`.  Timestamps (`Date.now()`, `Date` values) are milliseconds
as `Int`.
-/

namespace Orchestrator

/-! ## Association lists

Redis hashes (`task:<id>` → serialized record), sets (`deps:<id>`),
string keys (`result:<id>`), and the in-memory `Map`s of the coordinator and
the round-robin strategy are all finite partial maps.  They are modelled as
association lists with update-in-place semantics. -/

def alGet {α : Type} (k : String) : List (String × α) → Option α
  | [] => none
  | (k', v) :: rest => if k' = k then some v else alGet k rest

def alSet {α : Type} (k : String) (v : α) : List (String × α) → List (String × α)
  | [] => [(k, v)]
  | (k', v') :: rest =>
      if k' = k then (k, v) :: rest else (k', v') :: alSet k v rest


/-! ## Redis sorted set

A Redis sorted set keeps its members ordered by score; members with equal
score are ordered lexicographically by the member string (byte order; task ids
are ASCII, so codepoint order coincides).  `ZADD` inserts or updates a member,
`ZRANGE 0 -1` returns all members in that order, `ZREM` removes a member,
`ZCARD` counts members.  The set is modelled as a list of
`(member, score)` pairs kept in sorted order by construction. -/

def charListLtB : List Char → List Char → Bool
  | [], [] => false
  | [], _ :: _ => true
  | _ :: _, [] => false
  | a :: as, b :: bs =>
      if a < b then true else if b < a then false else charListLtB as bs

/-- Lexicographic strict order on member strings, as Redis compares members of
equal score. -/
def strLtB (a b : String) : Bool := charListLtB a.data b.data

/-- Redis sorted-set internal order: by score ascending, then member
lexicographically ascending. -/
def zltB (a b : String × Int) : Bool :=
  a.2 < b.2 || (a.2 == b.2 && strLtB a.1 b.1)

def zinsert (m : String) (sc : Int) : List (String × Int) → List (String × Int)
  | [] => [(m, sc)]
  | (m', sc') :: rest =>
      if zltB (m, sc) (m', sc') then (m, sc) :: (m', sc') :: rest
      else (m', sc') :: zinsert m sc rest

/-- ZADD: if the member exists its score is updated (the member moves to the
position of its new score), otherwise it is inserted at its sorted position. -/
def zadd (m : String) (sc : Int) (z : List (String × Int)) : List (String × Int) :=
  zinsert m sc (z.filter (fun p => p.1 ≠ m))

/-- ZREM: removes the member if present. -/
def zrem (m : String) (z : List (String × Int)) : List (String × Int) :=
  z.filter (fun p => p.1 ≠ m)

/-- ZRANGE 0 -1: all members in sorted-set order. -/
def zKeys (z : List (String × Int)) : List String := z.map (·.1)

/-! ## Redis plain set

`deps:<taskId>` is a Redis set of dependency ids.  `SADD` adds the members not
already present, `SREM` removes one, `SCARD` is the size, `SISMEMBER` tests
membership.  Modelled as a duplicate-free list. -/

def saddMany (ids : List String) (s : List String) : List String :=
  ids.foldl (fun acc d => if d ∈ acc then acc else acc ++ [d]) s


/-! ## The task queue data model (`RedisTaskQueue.ts`) -/

/-- `QueuedTaskStatus` from `ITaskQueue.ts`. -/
inductive QStatus where
  | pending
  | ready
  | inProgress
  | completed
  | failed
  | retrying
deriving DecidableEq, Repr

/-- The queue-relevant fields of `IQueuedTask`.  `priority` comes from the
submitted `ITask` (`task.priority || 0`: the model takes the effective integer
priority).  Timestamps are milliseconds. -/
structure QTask where
  id : String
  priority : Int
  dependencies : List String
  status : QStatus
  retryCount : Nat
  maxRetries : Nat
  scheduledAt : Option Int := none
  startedAt : Option Int := none
  completedAt : Option Int := none
deriving DecidableEq, Repr

/-- The fields of an `IResult` the queue stores. -/
structure RResult where
  taskId : String
  success : Bool
  content : String
deriving DecidableEq, Repr

/-- The submitted `ITask` slice relevant to `enqueue`.  `generateId()` (used
when `task.id` is absent) is external randomness; the model takes the
effective id. -/
structure TaskIn where
  id : String
  priority : Int
deriving DecidableEq, Repr

/-- The Redis keys owned by `RedisTaskQueue`:
`zset` is the `taskqueue:pending` sorted set; `tasks` the `data` field of the
`task:<id>` hashes; `hres`/`herr` the write-only `result`/`error` fields of
those hashes; `deps` the `deps:<id>` sets; `results` the `result:<id>` keys
(the 1-hour expiry of `result:<id>` is external-store retention and is not
modelled). -/
structure QState where
  zset : List (String × Int)
  tasks : List (String × QTask)
  deps : List (String × List String)
  results : List (String × RResult)
  hres : List (String × RResult)
  herr : List (String × String)
deriving DecidableEq, Repr

def QState.empty : QState := ⟨[], [], [], [], [], []⟩

/-- Stored dependency set of a task (empty when the `deps:<id>` key is
absent). -/
def depsOf (s : QState) (id : String) : List String := (alGet id s.deps).getD []

/-- `enqueue(task, dependencies)`: status Ready iff the dependency list is
empty, retryCount 0, maxRetries 3; stores the record, SADDs the dependency
set when non-empty, and ZADDs the id with score `-priority`. -/
def enqueue (t : TaskIn) (dependencies : List String) (s : QState) : String × QState :=
  let taskId := t.id
  let qt : QTask :=
    { id := taskId, priority := t.priority, dependencies := dependencies,
      status := if dependencies = [] then .ready else .pending,
      retryCount := 0, maxRetries := 3 }
  let s₁ : QState := { s with tasks := alSet taskId qt s.tasks }
  let s₂ : QState :=
    if dependencies = [] then s₁
    else { s₁ with deps := alSet taskId (saddMany dependencies (depsOf s₁ taskId)) s₁.deps }
  (taskId, { s₂ with zset := zadd taskId (-t.priority) s₂.zset })

/-- The loop body of `getReadyTasks`: walks the ZRANGE ids, collects Ready
tasks, and lazily promotes any Retrying task whose `scheduledAt` has elapsed
(persisting the promotion). -/
def promoteStep (now : Int) :
    List String → List (String × QTask) → List QTask × List (String × QTask)
  | [], tasks => ([], tasks)
  | id :: rest, tasks =>
      match alGet id tasks with
      | none => promoteStep now rest tasks
      | some t =>
          if t.status = .ready then
            let p := promoteStep now rest tasks
            (t :: p.1, p.2)
          else if t.status = .retrying then
            match t.scheduledAt with
            | some sched =>
                if sched ≤ now then
                  let t' : QTask := { t with status := .ready }
                  let p := promoteStep now rest (alSet id t' tasks)
                  (t' :: p.1, p.2)
                else promoteStep now rest tasks
            | none => promoteStep now rest tasks
          else promoteStep now rest tasks

/-- `getReadyTasks()` at time `now`. -/
def getReadyTasks (now : Int) (s : QState) : List QTask × QState :=
  let p := promoteStep now (zKeys s.zset) s.tasks
  (p.1, { s with tasks := p.2 })

/-- `dequeue()` at time `now`: first ready task, set to InProgress with
`startedAt`, persisted; `none` when no task is ready. -/
def dequeue (now : Int) (s : QState) : Option QTask × QState :=
  let p := getReadyTasks now s
  match p.1 with
  | [] => (none, p.2)
  | t :: _ =>
      let t' : QTask := { t with status := .inProgress, startedAt := some now }
      (some t', { p.2 with tasks := alSet t.id t' p.2.tasks })

/-- `peek()` at time `now` (shares `getReadyTasks`, including its lazy
promotions). -/
def peek (now : Int) (s : QState) : Option QTask × QState :=
  let p := getReadyTasks now s
  (p.1.head?, p.2)

/-- The loop body of `resolveDependencies(completedTaskId)`: for each queued
id, SREM the completed id from its dependency set; if the set became empty and
the task is Pending, set it Ready. -/
def resolveGo (cid : String) : List String → QState → QState
  | [], s => s
  | id :: rest, s =>
      let dl := depsOf s id
      if cid ∈ dl then
        let dl' := dl.filter (· ≠ cid)
        let s₁ : QState := { s with deps := alSet id dl' s.deps }
        let s₂ : QState :=
          if dl'.length = 0 then
            match alGet id s₁.tasks with
            | some t =>
                if t.status = .pending then
                  { s₁ with tasks := alSet id { t with status := .ready } s₁.tasks }
                else s₁
            | none => s₁
          else s₁
        resolveGo cid rest s₂
      else resolveGo cid rest s

/-- `resolveDependencies(completedTaskId)`: scans the ids currently in the
sorted set. -/
def resolveDependencies (cid : String) (s : QState) : QState :=
  resolveGo cid (zKeys s.zset) s

/-- `markComplete(taskId, result)` at time `now`: updates the record when
present, always ZREMs the id, always stores the result under `result:<id>`,
and always runs dependency resolution. -/
def markComplete (taskId : String) (r : RResult) (now : Int) (s : QState) : QState :=
  let s₁ : QState :=
    match alGet taskId s.tasks with
    | some t =>
        let t' : QTask := { t with status := .completed, completedAt := some now }
        { s with tasks := alSet taskId t' s.tasks, hres := alSet taskId r s.hres }
    | none => s
  let s₂ : QState := { s₁ with zset := zrem taskId s₁.zset }
  let s₃ : QState := { s₂ with results := alSet taskId r s₂.results }
  resolveDependencies taskId s₃

/-- `markFailed(taskId, error)` at time `now`: unknown id is a no-op;
otherwise increments `retryCount` and either schedules a retry with delay
`2^retryCount * 1000` ms or marks the task Failed. -/
def markFailed (taskId : String) (errMsg : String) (now : Int) (s : QState) : QState :=
  match alGet taskId s.tasks with
  | none => s
  | some t =>
      let rc := t.retryCount + 1
      let t' : QTask :=
        if rc < t.maxRetries then
          { t with retryCount := rc, status := .retrying,
                   scheduledAt := some (now + 2 ^ rc * 1000) }
        else
          { t with retryCount := rc, status := .failed }
      { s with tasks := alSet taskId t' s.tasks, herr := alSet taskId errMsg s.herr }

/-- `getTaskStatus(taskId)`. -/
def getTaskStatus (taskId : String) (s : QState) : Option QStatus :=
  (alGet taskId s.tasks).map (·.status)

/-- `getResult(taskId)`. -/
def getResult (taskId : String) (s : QState) : Option RResult :=
  alGet taskId s.results

/-- `size()` = ZCARD of the pending sorted set. -/
def qsize (s : QState) : Nat := s.zset.length

/-- `clear()`: deletes the `task:`, `deps:` and `result:` keys of every
member of the sorted set, then the sorted set itself.  Records of ids no
longer in the sorted set survive. -/
def clear (s : QState) : QState :=
  let ids := zKeys s.zset
  if ids = [] then s
  else
    { zset := [],
      tasks := s.tasks.filter (fun p => p.1 ∉ ids),
      deps := s.deps.filter (fun p => p.1 ∉ ids),
      results := s.results.filter (fun p => p.1 ∉ ids),
      hres := s.hres.filter (fun p => p.1 ∉ ids),
      herr := s.herr.filter (fun p => p.1 ∉ ids) }

/-! ## Retry strategy (`RetryStrategy.ts`)

`Math.random()` draws from `[0, 1)`; float arithmetic is modelled over `ℚ`. -/

structure IRetryPolicy where
  maxRetries : Nat
  baseDelayMs : ℚ
  maxDelayMs : ℚ
  backoffMultiplier : ℚ
deriving DecidableEq, Repr

/-- `DEFAULT_RETRY_POLICY` from `IDomainConfig.ts`. -/
def DEFAULT_RETRY_POLICY : IRetryPolicy :=
  { maxRetries := 3, baseDelayMs := 1000, maxDelayMs := 30000, backoffMultiplier := 2 }

/-- `ExponentialBackoffStrategy.getDelay(attempt)` with the draw of
`Math.random()` passed explicitly:
`delay = base * multiplier^attempt`, `jitter = delay * 0.1 * rand`,
result `min (delay + jitter) maxDelay`. -/
def getDelay (p : IRetryPolicy) (attempt : Nat) (rand : ℚ) : ℚ :=
  let delay := p.baseDelayMs * p.backoffMultiplier ^ attempt
  let jitter := delay * (1 / 10) * rand
  min (delay + jitter) p.maxDelayMs

/-! ## Team members, domain config, round-robin strategy
(`ITeam.ts`, `IDomainConfig.ts`, `RoundRobinStrategy.ts`) -/

/-- The routing-relevant fields of `ITeamMember` (`agent.id`, `roleId`,
`domainId`, `availability` 0–100). -/
structure TeamMember where
  agentId : String
  roleId : String
  domainId : String
  availability : Int
deriving DecidableEq, Repr

/-- The router-relevant fields of `IDomainConfig`. -/
structure DomainCfg where
  domainId : String
  defaultRole : String
deriving DecidableEq, Repr

/-- The task slice seen by routing strategies (free-text payload). -/
structure RTask where
  content : String
deriving DecidableEq, Repr

/-- The `lastAssignedIndex` map of `RoundRobinStrategy` (per-domain last
index; absent key reads as `-1` via `?? -1`). -/
structure RRState where
  lastAssignedIndex : List (String × Int)
deriving DecidableEq, Repr


/-- `RoundRobinStrategy.route(task, members, config)`: filters to available
members, advances `(lastIndex + 1) mod availableCount` for the config's
domain, stores the new index, returns the member at it. -/
def rrRoute (members : List TeamMember) (cfg : DomainCfg) (st : RRState) :
    Option TeamMember × RRState :=
  let avail := members.filter (fun m => 0 < m.availability)
  if avail.length = 0 then (none, st)
  else
    let lastIndex := (alGet cfg.domainId st.lastAssignedIndex).getD (-1)
    let nextIndex := (lastIndex + 1) % (avail.length : Int)
    (avail[nextIndex.toNat]?, ⟨alSet cfg.domainId nextIndex st.lastAssignedIndex⟩)

/-- Iterates `rrRoute` `n` times, collecting the outputs in call order. -/
def rrRun (members : List TeamMember) (cfg : DomainCfg) :
    Nat → RRState → List (Option TeamMember) × RRState
  | 0, st => ([], st)
  | n + 1, st =>
      let p := rrRoute members cfg st
      let q := rrRun members cfg n p.2
      (p.1 :: q.1, q.2)

/-! ## Routing-strategy engine (`TaskRouter.findBestMember`)

A strategy is its `route` function: `(task, candidates, config) → member?`.
The engine holds an ordered list of them. -/

def RoutingStrategy : Type := RTask → List TeamMember → DomainCfg → Option TeamMember

/-- The strategy loop of `findBestMember`: first non-none result wins. -/
def tryStrategies (task : RTask) (doms : List TeamMember) (cfg : DomainCfg) :
    List RoutingStrategy → Option TeamMember
  | [] => none
  | f :: rest =>
      match f task doms cfg with
      | some m => some m
      | none => tryStrategies task doms cfg rest

/-- `TaskRouter.findBestMember(task, members)`: filters members to the
router's domain (returning none when empty), tries the strategies in
registration order, then falls back to the first domain member holding the
default role with nonzero availability, then to any available domain
member. -/
def findBestMember (strategies : List RoutingStrategy) (cfg : DomainCfg)
    (task : RTask) (members : List TeamMember) : Option TeamMember :=
  let domainMembers := members.filter (fun m => m.domainId = cfg.domainId)
  if domainMembers.length = 0 then none
  else
    match tryStrategies task domainMembers cfg strategies with
    | some m => some m
    | none =>
        match domainMembers.find? (fun m => m.roleId = cfg.defaultRole && 0 < m.availability) with
        | some dm => some dm
        | none => domainMembers.find? (fun m => 0 < m.availability)

/-! ## Coordinator (`CoordinatorAgent.ts`)

Worker registry, assignment, and Result intake.  The message broker, the
optional task-queue bridge and the pending-promise map act on external
collaborators and are outside this state. -/

inductive AgentStatus where
  | idle
  | busy
  | offline
  | error
deriving DecidableEq, Repr

structure WorkerInfo where
  id : String
  status : AgentStatus
  lastSeen : Int
  taskCount : Nat
  successRate : ℚ
deriving DecidableEq, Repr

/-- The coordinator's task slice (payload only; `from`/`to` rewriting goes to
the external transport). -/
structure CTask where
  id : String
  content : String
  priority : Int
deriving DecidableEq, Repr

structure CoState where
  workers : List (String × WorkerInfo)
  pendingTasks : List CTask
  results : List (String × RResult)
deriving DecidableEq, Repr

def CoState.empty : CoState := ⟨[], [], []⟩

/-- `registerWorker(workerId)`: Idle, taskCount 0, successRate 1. -/
def registerWorker (workerId : String) (now : Int) (s : CoState) : CoState :=
  { s with
    workers := alSet workerId ⟨workerId, .idle, now, 0, 1⟩ s.workers }

/-- `assignTask(task, agentId)`: unknown worker throws; non-idle worker gets
the task appended to the pending buffer; otherwise the worker goes Busy and
its `taskCount` is incremented (the dispatch itself is external transport). -/
def assignTask (task : CTask) (agentId : String) (s : CoState) :
    Except String CoState :=
  match alGet agentId s.workers with
  | none => .error ("Worker inconnu: " ++ agentId)
  | some w =>
      if w.status ≠ .idle then
        .ok { s with pendingTasks := s.pendingTasks ++ [task] }
      else
        .ok { s with
          workers := alSet agentId ({ w with status := .busy, taskCount := w.taskCount + 1 }) s.workers }

/-- `getAvailableWorkers()`: ids of Idle workers, registry order. -/
def availableWorkers (s : CoState) : List String :=
  (s.workers.filter (fun p => p.2.status = .idle)).map (·.1)

/-- The drain loop of `processPendingTasks`, with the buffer length as
fuel (each iteration shifts one buffered task). -/
def drainPending : Nat → CoState → CoState
  | 0, s => s
  | n + 1, s =>
      match s.pendingTasks with
      | [] => s
      | task :: rest =>
          match availableWorkers s with
          | [] => s
          | wid :: _ =>
              match assignTask task wid { s with pendingTasks := rest } with
              | .ok s' => drainPending n s'
              | .error _ => s

def processPendingTasks (s : CoState) : CoState := drainPending s.pendingTasks.length s

/-- The `RESULT` branch of `CoordinatorAgent.handleMessage`: records the
Result, sets the issuing worker Idle with `lastSeen = now`, recomputes its
successRate as `(successRate * (taskCount - 1) + (success ? 1 : 0)) / taskCount`
(guarded to 1 when `taskCount = 0`), then drains the pending buffer. -/
def handleResult (fromId : String) (r : RResult) (now : Int) (s : CoState) : CoState :=
  let s₁ : CoState := { s with results := alSet r.taskId r s.results }
  let s₂ : CoState :=
    match alGet fromId s₁.workers with
    | some w =>
        let total : ℚ := (w.taskCount : ℚ)
        let successCount : ℚ :=
          if r.success then w.successRate * (total - 1) + 1 else w.successRate * (total - 1)
        let rate : ℚ := if 0 < w.taskCount then successCount / total else 1
        { s₁ with
          workers := alSet fromId ({ w with status := .idle, lastSeen := now, successRate := rate }) s₁.workers }
    | none => s₁
  processPendingTasks s₂

/-! ## Derived queue operations and state predicates -/

/-- The mutation `dequeue` applies to the task it returns. -/
def markInProgress (now : Int) (t : QTask) : QTask :=
  { t with status := .inProgress, startedAt := some now }

/-- `n` successive `dequeue` calls at time `now`, collecting the returned
tasks. -/
def dequeueN (now : Int) : Nat → QState → List QTask × QState
  | 0, s => ([], s)
  | n + 1, s =>
      match dequeue now s with
      | (none, s') => ([], s')
      | (some t, s') =>
          let p := dequeueN now n s'
          (t :: p.1, p.2)

/-- Every stored record carries the id it is keyed under (true of every
record the queue writes; decidable on concrete states). -/
def IdsMatch (tasks : List (String × QTask)) : Prop :=
  ∀ p ∈ tasks, (p.2).id = p.1

/-- The sorted set is in Redis order (score ascending, member
lexicographically ascending on ties) — true by construction of `zadd`. -/
def SortedZ (s : QState) : Prop :=
  s.zset.Pairwise (fun a b => zltB a b = true)

/-- No member of the sorted set occurs twice. -/
def NodupZ (s : QState) : Prop := (zKeys s.zset).Nodup

/-- Every queued member's score is `-priority` of its stored record (what
`enqueue` writes; decidable on concrete states). -/
def ScoresMatch (s : QState) : Prop :=
  ∀ p ∈ s.zset, ∀ q ∈ s.tasks, q.1 = p.1 → p.2 = -(q.2).priority

/-- The Ready records among `ids`, in `ids` order (what the `getReadyTasks`
loop collects once no promotion fires). -/
def readyFilter (tasks : List (String × QTask)) (ids : List String) : List QTask :=
  ids.filterMap (fun id =>
    match alGet id tasks with
    | some t => if t.status = .ready then some t else none
    | none => none)

/-- No Retrying record among `ids` has an elapsed `scheduledAt`: the
`getReadyTasks` loop performs no promotion. -/
def StableOn (now : Int) (tasks : List (String × QTask)) (ids : List String) : Prop :=
  ∀ id ∈ ids, ∀ t, alGet id tasks = some t →
    t.status = .retrying → ∀ sched, t.scheduledAt = some sched → now < sched

/-- Ready-selection order: strictly higher priority first, ties by
lexicographically smaller task id. -/
def prioBefore (t u : QTask) : Prop :=
  u.priority < t.priority ∨ (t.priority = u.priority ∧ strLtB t.id u.id = true)

/-! ## Queue operation traces -/

/-- One public operation of the queue API, with the wall-clock instant it
runs at. -/
inductive QOp where
  | enqueueOp (t : TaskIn) (ds : List String)
  | dequeueOp (now : Int)
  | peekOp (now : Int)
  | getReadyOp (now : Int)
  | markCompleteOp (id : String) (r : RResult) (now : Int)
  | markFailedOp (id : String) (msg : String) (now : Int)
  | clearOp
deriving DecidableEq, Repr

/-- State effect of one operation. -/
def execOp (s : QState) : QOp → QState
  | .enqueueOp t ds => (enqueue t ds s).2
  | .dequeueOp now => (dequeue now s).2
  | .peekOp now => (peek now s).2
  | .getReadyOp now => (getReadyTasks now s).2
  | .markCompleteOp id r now => markComplete id r now s
  | .markFailedOp id msg now => markFailed id msg now s
  | .clearOp => clear s

/-- `opSeq P s ops s'`: running `ops` from `s` reaches `s'`, and every
operation satisfies the side condition `P` in the state it runs from. -/
def opSeq (P : QState → QOp → Prop) : QState → List QOp → QState → Prop
  | s, [], s' => s' = s
  | s, op :: rest, s' => P s op ∧ opSeq P (execOp s op) rest s'

/-- The operation is not `markFailed` on a task that is tracked but not
InProgress (the coordinator only fails tasks it has dequeued). -/
def inProgressOnly (s : QState) : QOp → Prop
  | .markFailedOp id _ _ =>
      alGet id s.tasks = none ∨ ∃ t, alGet id s.tasks = some t ∧ t.status = .inProgress
  | _ => True

/-- The operation does not enqueue (or re-enqueue) the id `T`. -/
def notEnqOf (T : String) : QOp → Prop
  | .enqueueOp t _ => t.id ≠ T
  | _ => True

/-- The operation is not `markComplete` of the id `d`. -/
def notCompleteOf (d : String) : QOp → Prop
  | .markCompleteOp id _ _ => id ≠ d
  | _ => True

/-- The operation is not `clear`. -/
def notClearOp : QOp → Prop
  | .clearOp => False
  | _ => True

end Orchestrator

namespace Orchestrator

/-! ## Association-list and set lemmas -/

theorem alGet_alSet_self {α : Type} (k : String) (v : α) (l : List (String × α)) :
    alGet k (alSet k v l) = some v := by
  induction l with
  | nil => simp [alGet, alSet]
  | cons p rest ih =>
      by_cases h : p.1 = k
      · simp [alSet, alGet, h]
      · simp [alSet, alGet, h, ih]

theorem alGet_alSet_ne {α : Type} {k k' : String} (v : α) (l : List (String × α))
    (h : k' ≠ k) : alGet k' (alSet k v l) = alGet k' l := by
  induction l with
  | nil => simp [alGet, alSet, Ne.symm h]
  | cons p rest ih =>
      by_cases hp : p.1 = k
      · subst hp
        simp [alSet, alGet, Ne.symm h]
      · simp [alSet, alGet, hp, ih]

theorem mem_saddMany_of_mem_right {ids s : List String} {d : String}
    (h : d ∈ s) : d ∈ saddMany ids s := by
  induction ids generalizing s with
  | nil => simpa [saddMany] using h
  | cons i rest ih =>
      by_cases hi : i ∈ s
      · simpa [saddMany, hi] using ih h
      · have : d ∈ s ++ [i] := by simp [h]
        simpa [saddMany, hi] using ih this

theorem mem_saddMany_of_mem_left {ids s : List String} {d : String}
    (h : d ∈ ids) : d ∈ saddMany ids s := by
  induction ids generalizing s with
  | nil => cases h
  | cons i rest ih =>
      rcases List.mem_cons.mp h with h | h
      · subst h
        by_cases hi : d ∈ s
        · simpa [saddMany, hi] using mem_saddMany_of_mem_right hi
        · have : d ∈ s ++ [d] := by simp
          simpa [saddMany, hi] using mem_saddMany_of_mem_right this
      · by_cases hi : i ∈ s <;> simpa [saddMany, hi] using ih h

/-! ## C5 — exponential backoff delay -/

/-- C5: for every attempt `n` and every `Math.random()` draw, the
exponential-backoff delay under the default policy equals
`min (baseDelay * multiplier^n * (1 + jitter)) maxDelay` for some jitter in
`[0, 0.1]`; it never exceeds `maxDelay`; and it is monotonically
non-decreasing in `n` for every admissible choice of jitter draws. -/
theorem getDelay_default_spec (n : Nat) (rand : ℚ) (h0 : 0 ≤ rand) (h1 : rand < 1)
    (j : Nat → ℚ) (hj : ∀ m, 0 ≤ j m ∧ j m < 1) :
    (∃ jit : ℚ, 0 ≤ jit ∧ jit ≤ 1 / 10 ∧
        getDelay DEFAULT_RETRY_POLICY n rand = min (1000 * 2 ^ n * (1 + jit)) 30000) ∧
    getDelay DEFAULT_RETRY_POLICY n rand ≤ 30000 ∧
    getDelay DEFAULT_RETRY_POLICY n (j n) ≤ getDelay DEFAULT_RETRY_POLICY (n + 1) (j (n + 1)) := by
  refine ⟨⟨rand / 10, by positivity, by linarith, ?_⟩, ?_, ?_⟩
  · simp only [getDelay, DEFAULT_RETRY_POLICY]
    congr 1
    ring
  · exact min_le_right _ _
  · obtain ⟨hjn0, hjn1⟩ := hj n
    obtain ⟨hjs0, hjs1⟩ := hj (n + 1)
    simp only [getDelay, DEFAULT_RETRY_POLICY]
    refine min_le_min ?_ le_rfl
    have hd : (0 : ℚ) < 1000 * 2 ^ n := by positivity
    have he : (1000 : ℚ) * 2 ^ (n + 1) = 2 * (1000 * 2 ^ n) := by ring
    nlinarith [mul_nonneg (le_of_lt hd) hjs0]

/-! ## C7 — coordinator success-rate update -/

theorem drain_successRate (n : Nat) (s : CoState) (id : String) :
    (alGet id (drainPending n s).workers).map WorkerInfo.successRate
      = (alGet id s.workers).map WorkerInfo.successRate := by
  induction n generalizing s with
  | zero => rfl
  | succ n ih =>
      unfold drainPending
      cases hpt : s.pendingTasks with
      | nil => rfl
      | cons task rest =>
          cases hav : availableWorkers s with
          | nil => rfl
          | cons wid _ =>
              unfold assignTask
              cases hw : alGet wid s.workers with
              | none => simp [hw]
              | some w =>
                  by_cases hidle : w.status = AgentStatus.idle
                  · simp only [hw, hidle, ne_eq, not_true_eq_false, if_false, reduceIte]
                    rw [ih]
                    by_cases heq : id = wid
                    · subst heq
                      simp [alGet_alSet_self, hw]
                    · simp [alGet_alSet_ne _ _ heq, hw]
                  · simp only [hw, ne_eq, hidle, not_false_eq_true, if_true, reduceIte]
                    rw [ih]

/-- C7: when a Result from worker `fromId` (current info `w`, `taskCount > 0`)
arrives, the coordinator recomputes that worker's success rate as
`(successRate * (taskCount - 1) + (1 if success else 0)) / taskCount`; and in
the concrete scenario — fresh worker, one task assigned before each of
3 successful Results and then 1 failed Result — the rate after the 4th Result
is 3/4. -/
theorem coordinator_successRate_spec (s : CoState) (fromId : String) (w : WorkerInfo)
    (r : RResult) (now : Int)
    (hw : alGet fromId s.workers = some w) (htc : 0 < w.taskCount) :
    ((alGet fromId (handleResult fromId r now s).workers).map WorkerInfo.successRate
      = some ((w.successRate * ((w.taskCount : ℚ) - 1) + (if r.success then 1 else 0))
          / (w.taskCount : ℚ))) ∧
    ((let c0 := registerWorker "w1" 0 CoState.empty
      let step := fun (s' : CoState) (tid : String) (ok : Bool) =>
        handleResult "w1" ⟨tid, ok, "out"⟩ 0
          ((assignTask ⟨tid, "x", 1⟩ "w1" s').toOption.getD s')
      let c4 := step (step (step (step c0 "t1" true) "t2" true) "t3" true) "t4" false
      (alGet "w1" c4.workers).map WorkerInfo.successRate) = some (3 / 4 : ℚ)) := by
  constructor
  · unfold handleResult processPendingTasks
    simp only [hw]
    rw [drain_successRate]
    simp only [alGet_alSet_self, Option.map_some', htc, if_true, reduceIte]
    by_cases hs : r.success <;> simp [hs]
  · simp only [registerWorker, assignTask, handleResult, processPendingTasks, drainPending,
        alSet, alGet, availableWorkers, CoState.empty, Except.toOption, Option.getD,
        List.filter, List.map, if_true, if_false, reduceIte, reduceCtorEq, Option.map_some']
    norm_num

/-- Witness for C7: a single registered-and-busy worker with one assigned task
reporting a successful Result. -/
theorem coordinator_successRate_spec_witness :
    (alGet "w1" (⟨[("w1", ⟨"w1", .busy, 0, 1, 1⟩)], [], []⟩ : CoState).workers
        = some ⟨"w1", .busy, 0, 1, 1⟩) ∧
    (0 < (⟨"w1", AgentStatus.busy, 0, 1, 1⟩ : WorkerInfo).taskCount) ∧
    (((alGet "w1" (handleResult "w1" ⟨"t1", true, "out"⟩ 7
          (⟨[("w1", ⟨"w1", .busy, 0, 1, 1⟩)], [], []⟩ : CoState)).workers).map WorkerInfo.successRate
      = some (((⟨"w1", AgentStatus.busy, 0, 1, 1⟩ : WorkerInfo).successRate
            * (((⟨"w1", AgentStatus.busy, 0, 1, 1⟩ : WorkerInfo).taskCount : ℚ) - 1)
          + (if (⟨"t1", true, "out"⟩ : RResult).success then 1 else 0))
          / (((⟨"w1", AgentStatus.busy, 0, 1, 1⟩ : WorkerInfo).taskCount : ℚ)))) ∧
     ((let c0 := registerWorker "w1" 0 CoState.empty
       let step := fun (s' : CoState) (tid : String) (ok : Bool) =>
         handleResult "w1" ⟨tid, ok, "out"⟩ 0
           ((assignTask ⟨tid, "x", 1⟩ "w1" s').toOption.getD s')
       let c4 := step (step (step (step c0 "t1" true) "t2" true) "t3" true) "t4" false
       (alGet "w1" c4.workers).map WorkerInfo.successRate) = some (3 / 4 : ℚ))) :=
  ⟨by simp [alGet], by norm_num,
   coordinator_successRate_spec ⟨[("w1", ⟨"w1", .busy, 0, 1, 1⟩)], [], []⟩ "w1"
     ⟨"w1", .busy, 0, 1, 1⟩ ⟨"t1", true, "out"⟩ 7 (by simp [alGet]) (by norm_num)⟩

/-! ## C8 — round-robin rotation -/

theorem rr_char (members : List TeamMember) (cfg : DomainCfg)
    (hav : members.filter (fun m => 0 < m.availability) = members)
    (hK : 0 < members.length) :
    ∀ (n : Nat) (st : RRState),
      (rrRun members cfg n st).1 = (List.range n).map
        (fun (j : Nat) => members[((((alGet cfg.domainId st.lastAssignedIndex).getD (-1)) + 1 + (j : Int))
            % (members.length : Int)).toNat]?) := by
  intro n
  induction n with
  | zero => intro st; simp [rrRun]
  | succ n ih =>
      intro st
      have hne : ¬(members.filter (fun m => 0 < m.availability)).length = 0 := by
        rw [hav]; omega
      unfold rrRun rrRoute
      simp only [hne, if_false, reduceIte]
      rw [ih]
      simp only [hav, alGet_alSet_self, Option.getD_some]
      rw [List.range_succ_eq_map, List.map_cons, List.map_map]
      congr 1
      · norm_num
      · apply List.map_congr_left
        intro j hj
        simp only [Function.comp_apply]
        congr 2
        have h1 : ((((alGet cfg.domainId st.lastAssignedIndex).getD (-1)) + 1) % (members.length : Int) + 1 + (j : Int))
            % (members.length : Int)
            = (((alGet cfg.domainId st.lastAssignedIndex).getD (-1)) + 1 + ((j : Int) + 1)) % (members.length : Int) := by
          conv_lhs => rw [add_assoc]
          rw [Int.emod_add_emod]
          ring_nf
        rw [h1]
        push_cast
        ring_nf

/-- C8: with a fixed fully-available candidate list of size `K > 0`, each
round-robin call returns the candidate at index `(lastIndex + 1) mod K`;
`K + 1` sequential calls return every candidate at least once; and the
`(K+1)`-th call repeats the first call's candidate. -/
theorem roundRobin_rotation_spec (members : List TeamMember) (cfg : DomainCfg) (st0 : RRState)
    (hav : ∀ m ∈ members, 0 < m.availability) (hK : 0 < members.length) :
    (∀ st : RRState, (rrRoute members cfg st).1
        = members[((((alGet cfg.domainId st.lastAssignedIndex).getD (-1)) + 1)
            % (members.length : Int)).toNat]?) ∧
    (∀ i (hi : i < members.length),
        some (members.get ⟨i, hi⟩) ∈ (rrRun members cfg (members.length + 1) st0).1) ∧
    ((rrRun members cfg (members.length + 1) st0).1)[members.length]?
      = ((rrRun members cfg (members.length + 1) st0).1)[0]? := by
  have hfilter : members.filter (fun m => 0 < m.availability) = members :=
    List.filter_eq_self.mpr (by intro a ha; simpa using hav a ha)
  have hne : ¬(members.filter (fun m => 0 < m.availability)).length = 0 := by
    rw [hfilter]; omega
  have hchar := rr_char members cfg hfilter hK
  have hKi : (0 : Int) < (members.length : Int) := by exact_mod_cast hK
  refine ⟨?_, ?_, ?_⟩
  · intro st
    have hlen0 : ¬members.length = 0 := by omega
    unfold rrRoute
    simp only [hne, if_false, reduceIte, hfilter, hlen0]
  · intro i hi
    rw [hchar (members.length + 1) st0]
    set i0 : Int := (alGet cfg.domainId st0.lastAssignedIndex).getD (-1) with hi0
    have hjnn : 0 ≤ ((i : Int) - i0 - 1) % (members.length : Int) :=
      Int.emod_nonneg _ (by omega)
    have hjlt : ((i : Int) - i0 - 1) % (members.length : Int) < (members.length : Int) :=
      Int.emod_lt_of_pos _ hKi
    refine List.mem_map.mpr ⟨(((i : Int) - i0 - 1) % (members.length : Int)).toNat, ?_, ?_⟩
    · refine List.mem_range.mpr ?_
      omega
    · have hcast : ((((i : Int) - i0 - 1) % (members.length : Int)).toNat : Int)
          = ((i : Int) - i0 - 1) % (members.length : Int) := Int.toNat_of_nonneg hjnn
      rw [hcast]
      have key : (i0 + 1 + ((i : Int) - i0 - 1) % (members.length : Int)) % (members.length : Int)
          = (i : Int) := by
        rw [Int.add_emod, Int.emod_emod_of_dvd _ dvd_rfl, ← Int.add_emod]
        have h3 : i0 + 1 + ((i : Int) - i0 - 1) = (i : Int) := by ring
        rw [h3]
        exact Int.emod_eq_of_lt (by omega) (by exact_mod_cast hi)
      rw [key]
      simp [List.getElem?_eq_getElem hi, List.get_eq_getElem]
  · rw [hchar (members.length + 1) st0]
    set i0 : Int := (alGet cfg.domainId st0.lastAssignedIndex).getD (-1) with hi0
    rw [List.getElem?_map, List.getElem?_map]
    rw [List.getElem?_range (by omega), List.getElem?_range (by omega)]
    have hmm : (i0 + 1 + ((members.length : Nat) : Int)) % (members.length : Int)
        = (i0 + 1 + ((0 : Nat) : Int)) % (members.length : Int) := by
      push_cast
      rw [add_zero]
      have h2 := Int.add_mul_emod_self_left (i0 + 1) ((members.length : Nat) : Int) 1
      rw [mul_one] at h2
      exact h2
    simp only [Option.map_some']
    rw [hmm]

/-- Witness for C8: two fully-available members, a fresh per-domain index. -/
theorem roundRobin_rotation_spec_witness :
    (∀ m ∈ [(⟨"m1", "r", "d", 50⟩ : TeamMember), ⟨"m2", "r", "d", 60⟩], 0 < m.availability) ∧
    (0 < ([(⟨"m1", "r", "d", 50⟩ : TeamMember), ⟨"m2", "r", "d", 60⟩]).length) ∧
    (((rrRun [(⟨"m1", "r", "d", 50⟩ : TeamMember), ⟨"m2", "r", "d", 60⟩] ⟨"d", "r"⟩ 3 ⟨[]⟩).1)[2]?
      = ((rrRun [(⟨"m1", "r", "d", 50⟩ : TeamMember), ⟨"m2", "r", "d", 60⟩] ⟨"d", "r"⟩ 3 ⟨[]⟩).1)[0]?) :=
  ⟨by decide, by decide,
   (roundRobin_rotation_spec [⟨"m1", "r", "d", 50⟩, ⟨"m2", "r", "d", 60⟩] ⟨"d", "r"⟩ ⟨[]⟩
     (by decide) (by decide)).2.2⟩

/-! ## C6 — routing engine: filter, first-match-wins, fallbacks -/

theorem tryStrategies_none (task : RTask) (doms : List TeamMember) (cfg : DomainCfg)
    (l : List RoutingStrategy) (h : ∀ g ∈ l, g task doms cfg = none) :
    tryStrategies task doms cfg l = none := by
  induction l with
  | nil => rfl
  | cons f rest ih =>
      have hf : f task doms cfg = none := h f (by simp)
      unfold tryStrategies
      rw [hf]
      exact ih (fun g hg => h g (by simp [hg]))

theorem tryStrategies_first (task : RTask) (doms : List TeamMember) (cfg : DomainCfg)
    (pre post : List RoutingStrategy) (f : RoutingStrategy) (m : TeamMember)
    (hpre : ∀ g ∈ pre, g task doms cfg = none) (hf : f task doms cfg = some m) :
    tryStrategies task doms cfg (pre ++ f :: post) = some m := by
  induction pre with
  | nil =>
      unfold tryStrategies
      simp [hf]
  | cons g rest ih =>
      have hg : g task doms cfg = none := hpre g (by simp)
      rw [List.cons_append]
      simp only [tryStrategies, hg]
      exact ih (fun g' hg' => hpre g' (by simp [hg']))

/-- C6: `findBestMember` filters candidates to the configured domain and
(1) returns the first strategy's non-none match, never overridden by later
strategies; (2) when every strategy returns none, it returns the first domain
candidate holding the default role with nonzero availability, else the first
available domain candidate, else none. -/
theorem findBestMember_spec (strategies pre post : List RoutingStrategy) (f : RoutingStrategy)
    (m : TeamMember) (cfg : DomainCfg) (task : RTask) (members : List TeamMember) :
    (strategies = pre ++ f :: post →
     (∀ g ∈ pre, g task (members.filter (fun mm => mm.domainId = cfg.domainId)) cfg = none) →
     f task (members.filter (fun mm => mm.domainId = cfg.domainId)) cfg = some m →
     members.filter (fun mm => mm.domainId = cfg.domainId) ≠ [] →
     findBestMember strategies cfg task members = some m) ∧
    ((∀ g ∈ strategies, g task (members.filter (fun mm => mm.domainId = cfg.domainId)) cfg = none) →
     findBestMember strategies cfg task members
       = (((members.filter (fun mm => mm.domainId = cfg.domainId)).find?
             (fun mm => mm.roleId = cfg.defaultRole && 0 < mm.availability)).orElse
           (fun _ => (members.filter (fun mm => mm.domainId = cfg.domainId)).find?
             (fun mm => 0 < mm.availability)))) := by
  constructor
  · intro hsplit hpre hf hne
    unfold findBestMember
    have hlen : ¬(members.filter (fun mm => mm.domainId = cfg.domainId)).length = 0 := by
      simpa [List.length_eq_zero] using hne
    simp only [hlen, if_false, reduceIte]
    rw [hsplit, tryStrategies_first task _ cfg pre post f m hpre hf]
  · intro hall
    unfold findBestMember
    by_cases hlen : (members.filter (fun mm => mm.domainId = cfg.domainId)).length = 0
    · have hnil : members.filter (fun mm => mm.domainId = cfg.domainId) = [] :=
        List.length_eq_zero.mp hlen
      simp [hlen, hnil]
    · simp only [hlen, if_false, reduceIte]
      rw [tryStrategies_none task _ cfg strategies hall]
      cases hfind : (members.filter (fun mm => mm.domainId = cfg.domainId)).find?
          (fun mm => mm.roleId = cfg.defaultRole && 0 < mm.availability) with
      | none => simp [Option.orElse]
      | some dm => simp [Option.orElse]

/-- Witness for C6: one none-returning strategy followed by a head-picking
strategy over a two-member pool spanning two domains. -/
theorem findBestMember_spec_witness :
    findBestMember [fun _ _ _ => none, fun _ doms _ => doms.head?] ⟨"d", "lead"⟩ ⟨"job"⟩
        [⟨"a", "lead", "d", 5⟩, ⟨"b", "dev", "e", 3⟩] = some ⟨"a", "lead", "d", 5⟩ :=
  (findBestMember_spec [fun _ _ _ => none, fun _ doms _ => doms.head?]
      [fun _ _ _ => none] [] (fun _ doms _ => doms.head?) ⟨"a", "lead", "d", 5⟩
      ⟨"d", "lead"⟩ ⟨"job"⟩ [⟨"a", "lead", "d", 5⟩, ⟨"b", "dev", "e", 3⟩]).1
    rfl
    (by
      intro g hg
      rw [List.mem_singleton] at hg
      subst hg
      rfl)
    (by rfl)
    (by decide)

/-! ## C10 — which operations touch the priority structure -/

theorem resolveGo_zset (cid : String) (ids : List String) (s : QState) :
    (resolveGo cid ids s).zset = s.zset := by
  induction ids generalizing s with
  | nil => rfl
  | cons id rest ih =>
      unfold resolveGo
      by_cases hmem : cid ∈ depsOf s id
      · simp only [hmem, if_true, reduceIte]
        by_cases hlen : ((depsOf s id).filter (· ≠ cid)).length = 0
        · simp only [hlen, if_true, reduceIte]
          cases halg : alGet id ({ s with deps := alSet id ((depsOf s id).filter (· ≠ cid)) s.deps } : QState).tasks with
          | none => rw [ih]
          | some t =>
              by_cases hst : t.status = QStatus.pending
              · simp only [halg, hst, if_true, reduceIte]
                rw [ih]
              · simp only [halg, hst, if_false, reduceIte]
                rw [ih]
        · simp only [hlen, if_false, reduceIte]
          rw [ih]
      · simp only [hmem, if_false, reduceIte]
        exact ih s

theorem zKeys_zinsert (m id' : String) (sc : Int) (z : List (String × Int)) :
    id' ∈ zKeys (zinsert m sc z) ↔ id' = m ∨ id' ∈ zKeys z := by
  induction z with
  | nil => simp [zinsert, zKeys]
  | cons p rest ih =>
      unfold zinsert
      by_cases hlt : zltB (m, sc) p
      · simp [hlt, zKeys]
      · simp only [hlt, if_false, reduceIte]
        simp [zKeys] at ih ⊢
        tauto

theorem zKeys_zadd_mem (m id' : String) (sc : Int) (z : List (String × Int))
    (hne : id' ≠ m) : id' ∈ zKeys (zadd m sc z) ↔ id' ∈ zKeys z := by
  unfold zadd
  rw [zKeys_zinsert]
  simp only [hne, false_or]
  simp [zKeys, List.mem_filter, List.mem_map]
  exact fun x _ => hne

theorem dequeue_zset (now : Int) (s : QState) : (dequeue now s).2.zset = s.zset := by
  unfold dequeue getReadyTasks
  cases hp : (promoteStep now (zKeys s.zset) s.tasks).1 with
  | nil => simp [hp]
  | cons a l => simp [hp]

theorem markFailed_zset (id msg : String) (now : Int) (s : QState) :
    (markFailed id msg now s).zset = s.zset := by
  unfold markFailed
  cases halg : alGet id s.tasks with
  | none => rfl
  | some u => simp [halg]

theorem markComplete_zset (id : String) (r : RResult) (now : Int) (s : QState) :
    (markComplete id r now s).zset = zrem id s.zset := by
  unfold markComplete resolveDependencies
  rw [resolveGo_zset]
  cases halg : alGet id s.tasks with
  | none => rfl
  | some u => simp [halg]

theorem enqueue_zset (t : TaskIn) (ds : List String) (s : QState) :
    (enqueue t ds s).2.zset = zadd t.id (-t.priority) s.zset := by
  unfold enqueue
  by_cases hds : ds = [] <;> simp [hds]

theorem clear_zset (s : QState) : (clear s).zset = [] := by
  unfold clear
  by_cases hz : zKeys s.zset = []
  · have hs : s.zset = [] := by
      have h2 := hz
      unfold zKeys at h2
      exact List.map_eq_nil_iff.mp h2
    simp [hz, hs, zKeys]
  · simp [hz]

/-- C10: `dequeue`, `peek`, `getReadyTasks` and `markFailed` leave the
priority sorted set (hence `size()`) unchanged — InProgress, Retrying and
Failed tasks stay counted; `markComplete` removes exactly its own id;
`enqueue` ZADDs its id without removing any other; `clear` empties the set.
A task id therefore leaves the priority structure only through `markComplete`
or `clear`. -/
theorem zset_frame_spec (s : QState) (now : Int) (id other msg : String) (r : RResult)
    (t : TaskIn) (ds : List String) :
    ((dequeue now s).2.zset = s.zset) ∧
    ((peek now s).2.zset = s.zset) ∧
    ((getReadyTasks now s).2.zset = s.zset) ∧
    ((markFailed id msg now s).zset = s.zset) ∧
    ((markComplete id r now s).zset = zrem id s.zset) ∧
    (other ≠ id → (other ∈ zKeys (markComplete id r now s).zset ↔ other ∈ zKeys s.zset)) ∧
    ((enqueue t ds s).2.zset = zadd t.id (-t.priority) s.zset) ∧
    (other ≠ t.id → (other ∈ zKeys (enqueue t ds s).2.zset ↔ other ∈ zKeys s.zset)) ∧
    ((clear s).zset = []) ∧
    (qsize (dequeue now s).2 = qsize s) ∧
    (qsize (markFailed id msg now s) = qsize s) := by
  have hdq := dequeue_zset now s
  have hmf := markFailed_zset id msg now s
  have hmc := markComplete_zset id r now s
  have henq := enqueue_zset t ds s
  refine ⟨hdq, rfl, rfl, hmf, hmc, ?_, henq, ?_, clear_zset s, ?_, ?_⟩
  · intro hne
    rw [hmc]
    unfold zrem
    simp [zKeys, List.mem_filter, List.mem_map]
    exact fun x _ => hne
  · intro hne
    rw [henq]
    exact zKeys_zadd_mem t.id other (-t.priority) s.zset hne
  · unfold qsize
    rw [hdq]
  · unfold qsize
    rw [hmf]

/-- Witness for C10 (the `other ≠ id` side conditions) at concrete ids. -/
theorem zset_frame_spec_witness :
    (("b" : String) ≠ "a") ∧
    (("b" : String) ∈ zKeys (markComplete "a" ⟨"a", true, "r"⟩ 0
        (enqueue ⟨"b", 1⟩ [] (enqueue ⟨"a", 1⟩ [] QState.empty).2).2).zset
      ↔ ("b" : String) ∈ zKeys (enqueue ⟨"b", 1⟩ [] (enqueue ⟨"a", 1⟩ [] QState.empty).2).2.zset) :=
  ⟨by decide,
   (zset_frame_spec (enqueue ⟨"b", 1⟩ [] (enqueue ⟨"a", 1⟩ [] QState.empty).2).2 0 "a" "b" "m"
      ⟨"a", true, "r"⟩ ⟨"c", 1⟩ []).2.2.2.2.2.1 (by decide)⟩

/-! ## C4 — operations on an unknown taskId -/

/-- C4 counterexample: `markComplete` on the untracked id `"x9"` is not a
no-op — it stores a result under `"x9"` and flips the dependent task `"t1"`
from Pending to Ready. -/
theorem markComplete_unknown_counterexample :
    (let s1 := (enqueue ⟨"t1", 5⟩ ["x9"] QState.empty).2
     let s2 := markComplete "x9" ⟨"x9", true, "ok"⟩ 0 s1
     alGet "x9" s1.tasks = none ∧
     getResult "x9" s1 = none ∧ getResult "x9" s2 = some ⟨"x9", true, "ok"⟩ ∧
     getTaskStatus "t1" s1 = some .pending ∧ getTaskStatus "t1" s2 = some .ready) := by
  decide

theorem resolveGo_tasks_none (cid T : String) (ids : List String) (s : QState)
    (h : alGet T s.tasks = none) : alGet T (resolveGo cid ids s).tasks = none := by
  induction ids generalizing s with
  | nil => exact h
  | cons id rest ih =>
      unfold resolveGo
      by_cases hmem : cid ∈ depsOf s id
      · simp only [hmem, if_true, reduceIte]
        by_cases hlen : ((depsOf s id).filter (· ≠ cid)).length = 0
        · simp only [hlen, if_true, reduceIte]
          cases halg : alGet id ({ s with deps := alSet id ((depsOf s id).filter (· ≠ cid)) s.deps } : QState).tasks with
          | none => exact ih _ h
          | some t =>
              by_cases hst : t.status = QStatus.pending
              · simp only [halg, hst, if_true, reduceIte]
                refine ih _ ?_
                have hne : T ≠ id := by
                  intro he
                  subst he
                  rw [h] at halg
                  cases halg
                simpa [alGet_alSet_ne _ _ hne] using h
              · simp only [halg, hst, if_false, reduceIte]
                exact ih _ h
        · simp only [hlen, if_false, reduceIte]
          exact ih _ h
      · simp only [hmem, if_false, reduceIte]
        exact ih s h

/-- C4 (amended): on an untracked taskId, `markFailed` is a complete no-op;
`markComplete` never creates or touches that id's task record, but still
removes the id from the sorted set, stores the result under the id, and runs
dependency resolution for it (which can ready Pending dependents). -/
theorem unknown_taskId_spec (s : QState) (id msg : String) (r : RResult) (now : Int)
    (hid : alGet id s.tasks = none) :
    (markFailed id msg now s = s) ∧
    (markComplete id r now s
      = resolveDependencies id
          { s with zset := zrem id s.zset, results := alSet id r s.results }) ∧
    (alGet id (markComplete id r now s).tasks = none) := by
  refine ⟨?_, ?_, ?_⟩
  · unfold markFailed
    rw [hid]
  · unfold markComplete
    rw [hid]
  · unfold markComplete resolveDependencies
    rw [hid]
    exact resolveGo_tasks_none id id _ _ hid

/-- Witness for C4 at the untracked id `"x9"` with one queued dependent. -/
theorem unknown_taskId_spec_witness :
    (alGet "x9" ((enqueue ⟨"t1", 5⟩ ["x9"] QState.empty).2).tasks = none) ∧
    ((markFailed "x9" "err" 3 (enqueue ⟨"t1", 5⟩ ["x9"] QState.empty).2
        = (enqueue ⟨"t1", 5⟩ ["x9"] QState.empty).2) ∧
     (markComplete "x9" ⟨"x9", true, "ok"⟩ 3 (enqueue ⟨"t1", 5⟩ ["x9"] QState.empty).2
        = resolveDependencies "x9"
            { (enqueue ⟨"t1", 5⟩ ["x9"] QState.empty).2 with
                zset := zrem "x9" ((enqueue ⟨"t1", 5⟩ ["x9"] QState.empty).2).zset,
                results := alSet "x9" ⟨"x9", true, "ok"⟩
                  ((enqueue ⟨"t1", 5⟩ ["x9"] QState.empty).2).results }) ∧
     (alGet "x9" (markComplete "x9" ⟨"x9", true, "ok"⟩ 3
        (enqueue ⟨"t1", 5⟩ ["x9"] QState.empty).2).tasks = none)) :=
  ⟨by decide,
   unknown_taskId_spec (enqueue ⟨"t1", 5⟩ ["x9"] QState.empty).2 "x9" "err"
     ⟨"x9", true, "ok"⟩ 3 (by decide)⟩

/-- Witness for C5 at `n = 2`, `rand = 1/2`, zero jitter draws. -/
theorem getDelay_default_spec_witness :
    (0 ≤ (1 / 2 : ℚ)) ∧ ((1 / 2 : ℚ) < 1) ∧ (∀ _m : Nat, 0 ≤ (0 : ℚ) ∧ (0 : ℚ) < 1) ∧
    ((∃ jit : ℚ, 0 ≤ jit ∧ jit ≤ 1 / 10 ∧
        getDelay DEFAULT_RETRY_POLICY 2 (1 / 2) = min (1000 * 2 ^ 2 * (1 + jit)) 30000) ∧
     getDelay DEFAULT_RETRY_POLICY 2 (1 / 2) ≤ 30000 ∧
     getDelay DEFAULT_RETRY_POLICY 2 ((fun _ => (0 : ℚ)) 2)
       ≤ getDelay DEFAULT_RETRY_POLICY 3 ((fun _ => (0 : ℚ)) 3)) :=
  ⟨by norm_num, by norm_num, fun _ => ⟨le_rfl, by norm_num⟩,
   getDelay_default_spec 2 (1 / 2) (by norm_num) (by norm_num)
     (fun _ => 0) (fun _ => ⟨le_rfl, by norm_num⟩)⟩

end Orchestrator

namespace Orchestrator

/-! ## C1 — dequeue order

Helper stack: reduction lemmas for the `getReadyTasks` loop, the main
postcondition of a loop pass (`promoteStep_post`), purity on stable states,
and the characterisation of repeated `dequeue`. -/


theorem promoteStep_cons_none {now : Int} {i : String} {rest : List String}
    {tasks : List (String × QTask)} (h : alGet i tasks = none) :
    promoteStep now (i :: rest) tasks = promoteStep now rest tasks := by
  rw [promoteStep.eq_def]
  simp [h]

theorem promoteStep_cons_ready {now : Int} {i : String} {rest : List String}
    {tasks : List (String × QTask)} {t : QTask} (hg : alGet i tasks = some t)
    (h1 : t.status = .ready) :
    promoteStep now (i :: rest) tasks
      = (t :: (promoteStep now rest tasks).1, (promoteStep now rest tasks).2) := by
  rw [promoteStep.eq_def]
  simp [hg, h1]

theorem promoteStep_cons_promote {now : Int} {i : String} {rest : List String}
    {tasks : List (String × QTask)} {t : QTask} {sched : Int}
    (hg : alGet i tasks = some t) (h2 : t.status = .retrying)
    (hsch : t.scheduledAt = some sched) (h3 : sched ≤ now) :
    promoteStep now (i :: rest) tasks
      = (({ t with status := .ready })
            :: (promoteStep now rest (alSet i ({ t with status := .ready }) tasks)).1,
         (promoteStep now rest (alSet i ({ t with status := .ready }) tasks)).2) := by
  have h1 : ¬t.status = QStatus.ready := by rw [h2]; intro h; cases h
  rw [promoteStep.eq_def]
  simp [hg, h1, h2, hsch, h3]

theorem promoteStep_cons_skip {now : Int} {i : String} {rest : List String}
    {tasks : List (String × QTask)} {t : QTask} (hg : alGet i tasks = some t)
    (h1 : ¬t.status = .ready)
    (hnot : ¬(t.status = .retrying ∧ ∃ sched, t.scheduledAt = some sched ∧ sched ≤ now)) :
    promoteStep now (i :: rest) tasks = promoteStep now rest tasks := by
  rw [promoteStep.eq_def]
  by_cases h2 : t.status = QStatus.retrying
  · cases hsch : t.scheduledAt with
    | none => simp [hg, h1, h2, hsch]
    | some sched =>
        have h3 : ¬sched ≤ now := fun hle => hnot ⟨h2, sched, hsch, hle⟩
        simp [hg, h1, h2, hsch, h3]
  · simp [hg, h1, h2]



theorem alGet_mem {α : Type} {k : String} {v : α} {l : List (String × α)}
    (h : alGet k l = some v) : (k, v) ∈ l := by
  induction l with
  | nil => cases h
  | cons p rest ih =>
      cases p with
      | mk a b =>
          unfold alGet at h
          by_cases hp : a = k
          · subst hp
            simp only [if_true, reduceIte] at h
            cases h
            exact List.mem_cons_self _ _
          · simp only [hp, if_false, reduceIte] at h
            exact List.mem_cons_of_mem _ (ih h)

theorem idsMatch_lookup {tasks : List (String × QTask)} (h : IdsMatch tasks)
    {id : String} {t : QTask} (hg : alGet id tasks = some t) : t.id = id :=
  h (id, t) (alGet_mem hg)

theorem idsMatch_set {tasks : List (String × QTask)} (h : IdsMatch tasks)
    {k : String} {v : QTask} (hv : v.id = k) : IdsMatch (alSet k v tasks) := by
  induction tasks with
  | nil =>
      intro p hp
      simp only [alSet, List.mem_singleton] at hp
      subst hp
      exact hv
  | cons q rest ih =>
      intro p hp
      unfold alSet at hp
      by_cases hq : q.1 = k
      · simp only [hq, if_true, reduceIte] at hp
        rcases List.mem_cons.mp hp with h1 | h1
        · subst h1; exact hv
        · exact h p (List.mem_cons_of_mem _ h1)
      · simp only [hq, if_false, reduceIte] at hp
        rcases List.mem_cons.mp hp with h1 | h1
        · subst h1
          simpa using h q (by simp)
        · exact ih (fun r hr => h r (List.mem_cons_of_mem _ hr)) p h1

theorem stableOn_set {now : Int} {tasks : List (String × QTask)} {ids : List String}
    (h : StableOn now tasks ids) {k : String} {v : QTask}
    (hv : v.status ≠ .retrying) : StableOn now (alSet k v tasks) ids := by
  intro id hid t hg hr sched hs
  by_cases hk : id = k
  · subst hk
    rw [alGet_alSet_self] at hg
    cases hg
    exact absurd hr hv
  · rw [alGet_alSet_ne _ _ hk] at hg
    exact h id hid t hg hr sched hs

theorem readyFilter_mem {tasks : List (String × QTask)} {ids : List String} {t : QTask}
    (h : t ∈ readyFilter tasks ids) :
    t.status = .ready ∧ ∃ id ∈ ids, alGet id tasks = some t := by
  unfold readyFilter at h
  rcases List.mem_filterMap.mp h with ⟨id, hid, hf⟩
  cases hg : alGet id tasks with
  | none => rw [hg] at hf; cases hf
  | some u =>
      rw [hg] at hf
      by_cases hu : u.status = QStatus.ready
      · simp only [hu, if_true, reduceIte] at hf
        cases hf
        exact ⟨hu, id, hid, hg⟩
      · simp only [hu, if_false, reduceIte] at hf
        cases hf

theorem promoteStep_frame (now : Int) (ids : List String) (tasks : List (String × QTask))
    (id : String) (hid : id ∉ ids) :
    alGet id (promoteStep now ids tasks).2 = alGet id tasks := by
  induction ids generalizing tasks with
  | nil => rfl
  | cons i rest ih =>
      have hne : id ≠ i := fun he => hid (by simp [he])
      have hrest : id ∉ rest := fun hr => hid (by simp [hr])
      cases hg : alGet i tasks with
      | none => rw [promoteStep_cons_none hg]; exact ih tasks hrest
      | some t =>
          by_cases h1 : t.status = QStatus.ready
          · rw [promoteStep_cons_ready hg h1]
            exact ih tasks hrest
          · by_cases h2 : t.status = QStatus.retrying
            · cases hsch : t.scheduledAt with
              | none =>
                  rw [promoteStep_cons_skip hg h1 (by rintro ⟨_, sched, hs, _⟩; rw [hsch] at hs; cases hs)]
                  exact ih tasks hrest
              | some sched =>
                  by_cases h3 : sched ≤ now
                  · rw [promoteStep_cons_promote hg h2 hsch h3]
                    simp only
                    rw [ih _ hrest, alGet_alSet_ne _ _ hne]
                  · rw [promoteStep_cons_skip hg h1
                        (by rintro ⟨_, sched', hs, hle⟩; rw [hsch] at hs; cases hs; exact h3 hle)]
                    exact ih tasks hrest
            · rw [promoteStep_cons_skip hg h1 (fun hc => h2 hc.1)]
              exact ih tasks hrest



theorem promoteStep_post (now : Int) (ids : List String) (tasks : List (String × QTask))
    (hnd : ids.Nodup) (him : IdsMatch tasks) :
    StableOn now (promoteStep now ids tasks).2 ids ∧
    (promoteStep now ids tasks).1 = readyFilter (promoteStep now ids tasks).2 ids ∧
    IdsMatch (promoteStep now ids tasks).2 ∧
    (∀ id t, alGet id tasks = some t → t.status ≠ .ready → t.status ≠ .retrying →
        alGet id (promoteStep now ids tasks).2 = some t) ∧
    (∀ id t, alGet id (promoteStep now ids tasks).2 = some t →
        ∃ u, alGet id tasks = some u ∧ u.priority = t.priority ∧ u.id = t.id) := by
  induction ids generalizing tasks with
  | nil =>
      refine ⟨?_, rfl, him, ?_, ?_⟩
      · intro id hid
        cases hid
      · intro id t hg _ _
        exact hg
      · intro id t hg
        exact ⟨t, hg, rfl, rfl⟩
  | cons i rest ih =>
      have hirest : i ∉ rest := (List.nodup_cons.mp hnd).1
      have hrest : rest.Nodup := (List.nodup_cons.mp hnd).2
      cases hg : alGet i tasks with
      | none =>
          obtain ⟨hst, hout, him', hfr, hpr⟩ := ih tasks hrest him
          have hfi : alGet i (promoteStep now rest tasks).2 = alGet i tasks :=
            promoteStep_frame now rest tasks i hirest
          rw [promoteStep_cons_none hg]
          refine ⟨?_, ?_, him', hfr, hpr⟩
          · intro id hid t hgt hr sched hsch
            rcases List.mem_cons.mp hid with h1 | h1
            · subst h1
              rw [hfi, hg] at hgt
              cases hgt
            · exact hst id h1 t hgt hr sched hsch
          · rw [hout]
            unfold readyFilter
            rw [List.filterMap_cons, hfi, hg]
      | some t =>
          by_cases h1 : t.status = QStatus.ready
          · obtain ⟨hst, hout, him', hfr, hpr⟩ := ih tasks hrest him
            have hfi : alGet i (promoteStep now rest tasks).2 = alGet i tasks :=
              promoteStep_frame now rest tasks i hirest
            rw [promoteStep_cons_ready hg h1]
            refine ⟨?_, ?_, him', hfr, hpr⟩
            · intro id hid u hgt hr sched hsch
              rcases List.mem_cons.mp hid with h2 | h2
              · subst h2
                rw [hfi, hg] at hgt
                cases hgt
                rw [h1] at hr
                cases hr
              · exact hst id h2 u hgt hr sched hsch
            · simp only
              rw [hout]
              unfold readyFilter
              rw [List.filterMap_cons, hfi, hg]
              simp only [h1, if_true, reduceIte]
          · by_cases h2 : t.status = QStatus.retrying
            · cases hsch : t.scheduledAt with
              | some sched =>
                  by_cases h3 : sched ≤ now
                  · have hti : t.id = i := idsMatch_lookup him hg
                    have him2 : IdsMatch (alSet i ({ t with status := .ready }) tasks) :=
                      idsMatch_set him hti
                    obtain ⟨hst, hout, him', hfr, hpr⟩ :=
                      ih (alSet i ({ t with status := .ready }) tasks) hrest him2
                    have hfi : alGet i (promoteStep now rest (alSet i ({ t with status := .ready }) tasks)).2
                        = alGet i (alSet i ({ t with status := .ready }) tasks) :=
                      promoteStep_frame now rest _ i hirest
                    rw [promoteStep_cons_promote hg h2 hsch h3]
                    refine ⟨?_, ?_, him', ?_, ?_⟩
                    · intro id hid u hgt hr sched' hsch'
                      rcases List.mem_cons.mp hid with h4 | h4
                      · subst h4
                        rw [hfi, alGet_alSet_self] at hgt
                        cases hgt
                        cases hr
                      · exact hst id h4 u hgt hr sched' hsch'
                    · simp only
                      rw [hout]
                      unfold readyFilter
                      rw [List.filterMap_cons, hfi, alGet_alSet_self]
                      simp only [if_true, reduceIte]
                    · intro id u hgt hu1 hu2
                      have hne : id ≠ i := by
                        intro he
                        subst he
                        rw [hg] at hgt
                        cases hgt
                        exact hu2 h2
                      refine hfr id u ?_ hu1 hu2
                      rw [alGet_alSet_ne _ _ hne]
                      exact hgt
                    · intro id u hgt
                      obtain ⟨u', hg', hp', hi'⟩ := hpr id u hgt
                      by_cases hne : id = i
                      · subst hne
                        rw [alGet_alSet_self] at hg'
                        cases hg'
                        exact ⟨t, hg, hp', hi'⟩
                      · rw [alGet_alSet_ne _ _ hne] at hg'
                        exact ⟨u', hg', hp', hi'⟩
                  · obtain ⟨hst, hout, him', hfr, hpr⟩ := ih tasks hrest him
                    have hfi : alGet i (promoteStep now rest tasks).2 = alGet i tasks :=
                      promoteStep_frame now rest tasks i hirest
                    rw [promoteStep_cons_skip hg h1
                        (by rintro ⟨_, sched', hs, hle⟩; rw [hsch] at hs; cases hs; exact h3 hle)]
                    refine ⟨?_, ?_, him', hfr, hpr⟩
                    · intro id hid u hgt hr sched' hsch'
                      rcases List.mem_cons.mp hid with h4 | h4
                      · subst h4
                        rw [hfi, hg] at hgt
                        cases hgt
                        rw [hsch] at hsch'
                        cases hsch'
                        omega
                      · exact hst id h4 u hgt hr sched' hsch'
                    · rw [hout]
                      unfold readyFilter
                      rw [List.filterMap_cons, hfi, hg]
                      simp only [h1, if_false, reduceIte]
              | none =>
                  obtain ⟨hst, hout, him', hfr, hpr⟩ := ih tasks hrest him
                  have hfi : alGet i (promoteStep now rest tasks).2 = alGet i tasks :=
                    promoteStep_frame now rest tasks i hirest
                  rw [promoteStep_cons_skip hg h1
                      (by rintro ⟨_, sched', hs, _⟩; rw [hsch] at hs; cases hs)]
                  refine ⟨?_, ?_, him', hfr, hpr⟩
                  · intro id hid u hgt hr sched' hsch'
                    rcases List.mem_cons.mp hid with h4 | h4
                    · subst h4
                      rw [hfi, hg] at hgt
                      cases hgt
                      rw [hsch] at hsch'
                      cases hsch'
                    · exact hst id h4 u hgt hr sched' hsch'
                  · rw [hout]
                    unfold readyFilter
                    rw [List.filterMap_cons, hfi, hg]
                    simp only [h1, if_false, reduceIte]
            · obtain ⟨hst, hout, him', hfr, hpr⟩ := ih tasks hrest him
              have hfi : alGet i (promoteStep now rest tasks).2 = alGet i tasks :=
                promoteStep_frame now rest tasks i hirest
              rw [promoteStep_cons_skip hg h1 (fun hc => h2 hc.1)]
              refine ⟨?_, ?_, him', hfr, hpr⟩
              · intro id hid u hgt hr sched' hsch'
                rcases List.mem_cons.mp hid with h4 | h4
                · subst h4
                  rw [hfi, hg] at hgt
                  cases hgt
                  exact absurd hr h2
                · exact hst id h4 u hgt hr sched' hsch'
              · rw [hout]
                unfold readyFilter
                rw [List.filterMap_cons, hfi, hg]
                simp only [h1, if_false, reduceIte]



theorem promoteStep_stable (now : Int) (ids : List String) (tasks : List (String × QTask))
    (h : StableOn now tasks ids) :
    promoteStep now ids tasks = (readyFilter tasks ids, tasks) := by
  induction ids with
  | nil => rfl
  | cons i rest ih =>
      have hrest : StableOn now tasks rest := fun id hid => h id (by simp [hid])
      cases hg : alGet i tasks with
      | none =>
          rw [promoteStep_cons_none hg, ih hrest]
          unfold readyFilter
          rw [List.filterMap_cons, hg]
      | some t =>
          by_cases h1 : t.status = QStatus.ready
          · rw [promoteStep_cons_ready hg h1, ih hrest]
            unfold readyFilter
            rw [List.filterMap_cons, hg]
            simp only [h1, if_true, reduceIte]
          · have hskip : ¬(t.status = QStatus.retrying ∧ ∃ sched, t.scheduledAt = some sched ∧ sched ≤ now) := by
              rintro ⟨hr, sched, hs, hle⟩
              exact absurd hle (not_le.mpr (h i (by simp) t hg hr sched hs))
            rw [promoteStep_cons_skip hg h1 hskip, ih hrest]
            unfold readyFilter
            rw [List.filterMap_cons, hg]
            simp only [h1, if_false, reduceIte]

theorem readyFilter_set_notin (tasks : List (String × QTask)) (ids : List String)
    (k : String) (v : QTask) (hk : k ∉ ids) :
    readyFilter (alSet k v tasks) ids = readyFilter tasks ids := by
  induction ids with
  | nil => rfl
  | cons i rest ih =>
      have hne : i ≠ k := fun he => hk (by simp [he])
      have hrest : k ∉ rest := fun hr => hk (by simp [hr])
      unfold readyFilter
      rw [List.filterMap_cons, List.filterMap_cons, alGet_alSet_ne _ _ hne]
      unfold readyFilter at ih
      cases alGet i tasks with
      | none => exact ih hrest
      | some t =>
          by_cases h1 : t.status = QStatus.ready
          · simp only [h1, if_true, reduceIte]
            rw [ih hrest]
          · simp only [h1, if_false, reduceIte]
            exact ih hrest

theorem readyFilter_set_head (tasks : List (String × QTask)) (ids : List String)
    (t : QTask) (rest : List QTask) (v : QTask)
    (hnd : ids.Nodup) (him : IdsMatch tasks)
    (hrf : readyFilter tasks ids = t :: rest) (hv : v.status ≠ .ready) :
    readyFilter (alSet t.id v tasks) ids = rest := by
  induction ids generalizing rest with
  | nil => cases hrf
  | cons i ids' ih =>
      have hirest : i ∉ ids' := (List.nodup_cons.mp hnd).1
      have hnd' : ids'.Nodup := (List.nodup_cons.mp hnd).2
      cases hg : alGet i tasks with
      | none =>
          have hrf' : readyFilter tasks ids' = t :: rest := by
            unfold readyFilter at hrf ⊢
            rw [List.filterMap_cons, hg] at hrf
            exact hrf
          unfold readyFilter
          rw [List.filterMap_cons]
          by_cases hik : i = t.id
          · rw [hik, alGet_alSet_self]
            simp only [hv, if_false, reduceIte]
            exact ih rest hnd' hrf'
          · rw [alGet_alSet_ne _ _ hik, hg]
            exact ih rest hnd' hrf'
      | some u =>
          by_cases h1 : u.status = QStatus.ready
          · have hui : u.id = i := idsMatch_lookup him hg
            have hrf2 : u = t ∧ readyFilter tasks ids' = rest := by
              unfold readyFilter at hrf
              rw [List.filterMap_cons, hg] at hrf
              simp only [h1, if_true, reduceIte] at hrf
              exact ⟨(List.cons_eq_cons.mp hrf).1, (List.cons_eq_cons.mp hrf).2⟩
            obtain ⟨hut, hrest'⟩ := hrf2
            subst hut
            have hnotin : readyFilter (alSet i v tasks) ids' = readyFilter tasks ids' :=
              readyFilter_set_notin tasks ids' i v hirest
            unfold readyFilter
            rw [hui, List.filterMap_cons, alGet_alSet_self]
            simp only [hv, if_false, reduceIte]
            unfold readyFilter at hnotin
            rw [hnotin]
            unfold readyFilter at hrest'
            exact hrest' 
          · have hrf' : readyFilter tasks ids' = t :: rest := by
              unfold readyFilter at hrf ⊢
              rw [List.filterMap_cons, hg] at hrf
              simpa only [h1, if_false, reduceIte] using hrf
            unfold readyFilter
            rw [List.filterMap_cons]
            by_cases hik : i = t.id
            · rw [hik, alGet_alSet_self]
              simp only [hv, if_false, reduceIte]
              exact ih rest hnd' hrf'
            · rw [alGet_alSet_ne _ _ hik, hg]
              simp only [h1, if_false, reduceIte]
              exact ih rest hnd' hrf'



theorem readyFilter_id_mem {tasks : List (String × QTask)} {ids : List String} {t : QTask}
    (him : IdsMatch tasks) (h : t ∈ readyFilter tasks ids) : t.id ∈ ids := by
  obtain ⟨_, id, hid, hg⟩ := readyFilter_mem h
  rw [idsMatch_lookup him hg]
  exact hid

theorem readyFilter_ids_nodup (tasks : List (String × QTask)) (ids : List String)
    (hnd : ids.Nodup) (him : IdsMatch tasks) :
    ((readyFilter tasks ids).map QTask.id).Nodup := by
  induction ids with
  | nil => exact List.nodup_nil
  | cons i ids' ih =>
      have hirest : i ∉ ids' := (List.nodup_cons.mp hnd).1
      have hnd' : ids'.Nodup := (List.nodup_cons.mp hnd).2
      unfold readyFilter
      rw [List.filterMap_cons]
      cases hg : alGet i tasks with
      | none => exact ih hnd'
      | some t =>
          by_cases h1 : t.status = QStatus.ready
          · simp only [h1, if_true, reduceIte, List.map_cons]
            refine List.nodup_cons.mpr ⟨?_, ih hnd'⟩
            intro hmem
            rcases List.mem_map.mp hmem with ⟨u, hu, hid⟩
            have : u.id ∈ ids' := readyFilter_id_mem him hu
            rw [hid] at this
            rw [idsMatch_lookup him hg] at this
            exact hirest this
          · simp only [h1, if_false, reduceIte]
            exact ih hnd'

theorem zltB_iff (a b : String × Int) :
    zltB a b = true ↔ a.2 < b.2 ∨ (a.2 = b.2 ∧ strLtB a.1 b.1 = true) := by
  unfold zltB
  simp [Bool.or_eq_true, Bool.and_eq_true, decide_eq_true_iff, beq_iff_eq]

theorem readyFilter_pairwise (z : List (String × Int)) (m : List (String × QTask))
    (hs : z.Pairwise (fun a b => zltB a b = true)) (him : IdsMatch m)
    (hsc : ∀ p ∈ z, ∀ t, alGet p.1 m = some t → p.2 = -t.priority) :
    List.Pairwise prioBefore (readyFilter m (zKeys z)) := by
  induction z with
  | nil => exact List.Pairwise.nil
  | cons p z' ih =>
      have hsz' : z'.Pairwise (fun a b => zltB a b = true) := (List.pairwise_cons.mp hs).2
      have hrel : ∀ q ∈ z', zltB p q = true := (List.pairwise_cons.mp hs).1
      have hsc' : ∀ q ∈ z', ∀ t, alGet q.1 m = some t → q.2 = -t.priority :=
        fun q hq => hsc q (List.mem_cons_of_mem _ hq)
      have hzk : zKeys (p :: z') = p.1 :: zKeys z' := rfl
      rw [hzk]
      unfold readyFilter
      rw [List.filterMap_cons]
      cases hg : alGet p.1 m with
      | none => exact ih hsz' hsc'
      | some t =>
          by_cases h1 : t.status = QStatus.ready
          · simp only [h1, if_true, reduceIte]
            refine List.pairwise_cons.mpr ⟨?_, ih hsz' hsc'⟩
            intro u hu
            obtain ⟨hus, id', hid', hg'⟩ := readyFilter_mem hu
            have hid'' : u.id = id' := idsMatch_lookup him hg'
            rcases List.mem_map.mp hid' with ⟨q, hq, hq1⟩
            have hzq : zltB p q = true := hrel q hq
            have hp2 : p.2 = -t.priority := hsc p (by simp) t hg
            have hq2 : q.2 = -u.priority := by
              refine hsc' q hq u ?_
              rw [hq1]
              exact hg'
            rcases (zltB_iff p q).mp hzq with hlt | ⟨heq, hlex⟩
            · left
              rw [hp2, hq2] at hlt
              omega
            · right
              constructor
              · rw [hp2, hq2] at heq
                omega
              · rw [idsMatch_lookup him hg, hid'', ← hq1]
                exact hlex
          · simp only [h1, if_false, reduceIte]
            exact ih hsz' hsc'



theorem dequeue_cons (now : Int) (s : QState) (t : QTask) (rest : List QTask)
    (hL : (promoteStep now (zKeys s.zset) s.tasks).1 = t :: rest) :
    dequeue now s = (some (markInProgress now t), { s with tasks := alSet t.id (markInProgress now t) (promoteStep now (zKeys s.zset) s.tasks).2 }) := by
  unfold dequeue getReadyTasks markInProgress
  simp only [hL]

theorem dequeueN_char (now : Int) (n : Nat) :
    ∀ s : QState, (zKeys s.zset).Nodup → IdsMatch s.tasks →
    (dequeueN now n s).1
      = (((promoteStep now (zKeys s.zset) s.tasks).1).take n).map (markInProgress now) := by
  induction n with
  | zero => intro s _ _; rfl
  | succ n ih =>
      intro s hnd him
      obtain ⟨hst, hout, him', hfr, hpr⟩ := promoteStep_post now (zKeys s.zset) s.tasks hnd him
      cases hL : (promoteStep now (zKeys s.zset) s.tasks).1 with
      | nil =>
          unfold dequeueN dequeue getReadyTasks
          simp only [hL]
          simp
      | cons t rest =>
          have hrf : readyFilter (promoteStep now (zKeys s.zset) s.tasks).2 (zKeys s.zset)
              = t :: rest := by rw [← hout, hL]
          have hdq := dequeue_cons now s t rest hL
          have hstab' : StableOn now (alSet t.id (markInProgress now t) (promoteStep now (zKeys s.zset) s.tasks).2) (zKeys s.zset) :=
            stableOn_set hst (by intro h; cases h)
          have him2 : IdsMatch (alSet t.id (markInProgress now t) (promoteStep now (zKeys s.zset) s.tasks).2) :=
            idsMatch_set him' rfl
          have hrf' : readyFilter (alSet t.id (markInProgress now t) (promoteStep now (zKeys s.zset) s.tasks).2) (zKeys s.zset) = rest :=
            readyFilter_set_head _ _ t rest _ hnd him' hrf (by intro h; cases h)
          unfold dequeueN
          rw [hdq]
          simp only
          have ihs := ih ({ s with tasks := alSet t.id (markInProgress now t) (promoteStep now (zKeys s.zset) s.tasks).2 }) hnd him2
          rw [ihs]
          dsimp only
          rw [promoteStep_stable now _ _ hstab']
          simp only [hrf', List.take_succ_cons, List.map_cons]

theorem readyFilter_scores (s : QState) (m : List (String × QTask))
    (hsm : ScoresMatch s)
    (hpr : ∀ id t, alGet id m = some t →
        ∃ u, alGet id s.tasks = some u ∧ u.priority = t.priority ∧ u.id = t.id) :
    ∀ p ∈ s.zset, ∀ t, alGet p.1 m = some t → p.2 = -t.priority := by
  intro p hp t hg
  obtain ⟨u, hgu, hup, _⟩ := hpr p.1 t hg
  have := hsm p hp (p.1, u) (alGet_mem hgu) rfl
  simp only at this
  rw [this, hup]



/-- C1 counterexample: tasks "b" then "a" are enqueued with equal priority 5
and both Ready, yet the first dequeue returns "a" — the Redis sorted set
breaks score ties by member string, not by enqueue (FIFO) order. -/
theorem dequeue_fifo_counterexample :
    (let s2 := (enqueue ⟨"a", 5⟩ [] (enqueue ⟨"b", 5⟩ [] QState.empty).2).2
     getTaskStatus "a" s2 = some .ready ∧ getTaskStatus "b" s2 = some .ready ∧
     ((dequeue 0 s2).1).map QTask.id = some "a" ∧
     ((getReadyTasks 0 s2).1).map QTask.id = ["a", "b"]) := by
  decide

/-- C1 (amended): dequeue returns none iff no task is ready; otherwise it
returns the first ready task with status set to InProgress and `startedAt`
set; `n` dequeues with no intervening operation return the first `n` ready
tasks, each at most once (distinct ids), in descending-priority order with
ties broken by ascending lexicographic task-id order (the sorted-set member
order) — not by enqueue order. -/
theorem dequeue_order_spec (s : QState) (now : Int) (n : Nat)
    (hnd : NodupZ s) (him : IdsMatch s.tasks) (hsz : SortedZ s) (hsm : ScoresMatch s) :
    ((dequeue now s).1 = none ↔ (getReadyTasks now s).1 = []) ∧
    ((dequeue now s).1 = ((getReadyTasks now s).1.head?).map (markInProgress now)) ∧
    ((dequeueN now n s).1 = ((getReadyTasks now s).1.take n).map (markInProgress now)) ∧
    List.Pairwise prioBefore (getReadyTasks now s).1 ∧
    ((getReadyTasks now s).1.map QTask.id).Nodup := by
  obtain ⟨hst, hout, him', hfr, hpr⟩ := promoteStep_post now (zKeys s.zset) s.tasks hnd him
  have hgrt : (getReadyTasks now s).1 = (promoteStep now (zKeys s.zset) s.tasks).1 := rfl
  refine ⟨?_, ?_, ?_, ?_, ?_⟩
  · rw [hgrt]
    cases hL : (promoteStep now (zKeys s.zset) s.tasks).1 with
    | nil =>
        unfold dequeue getReadyTasks
        simp [hL]
    | cons t rest =>
        rw [dequeue_cons now s t rest hL]
        simp
  · rw [hgrt]
    cases hL : (promoteStep now (zKeys s.zset) s.tasks).1 with
    | nil =>
        unfold dequeue getReadyTasks
        simp [hL]
    | cons t rest =>
        rw [dequeue_cons now s t rest hL]
        simp
  · rw [hgrt]
    exact dequeueN_char now n s hnd him
  · rw [hgrt, hout]
    exact readyFilter_pairwise s.zset _ hsz him' (readyFilter_scores s _ hsm hpr)
  · rw [hgrt, hout]
    exact readyFilter_ids_nodup _ _ hnd him'

/-- Witness for C1 on the two-task equal-priority state. -/
theorem dequeue_order_spec_witness :
    (NodupZ (enqueue ⟨"a", 5⟩ [] (enqueue ⟨"b", 5⟩ [] QState.empty).2).2 ∧
     IdsMatch ((enqueue ⟨"a", 5⟩ [] (enqueue ⟨"b", 5⟩ [] QState.empty).2).2).tasks ∧
     SortedZ (enqueue ⟨"a", 5⟩ [] (enqueue ⟨"b", 5⟩ [] QState.empty).2).2 ∧
     ScoresMatch (enqueue ⟨"a", 5⟩ [] (enqueue ⟨"b", 5⟩ [] QState.empty).2).2) ∧
    (((dequeue 0 (enqueue ⟨"a", 5⟩ [] (enqueue ⟨"b", 5⟩ [] QState.empty).2).2).1 = none
        ↔ (getReadyTasks 0 (enqueue ⟨"a", 5⟩ [] (enqueue ⟨"b", 5⟩ [] QState.empty).2).2).1 = []) ∧
     ((dequeue 0 (enqueue ⟨"a", 5⟩ [] (enqueue ⟨"b", 5⟩ [] QState.empty).2).2).1
        = ((getReadyTasks 0 (enqueue ⟨"a", 5⟩ [] (enqueue ⟨"b", 5⟩ [] QState.empty).2).2).1.head?).map (markInProgress 0)) ∧
     ((dequeueN 0 2 (enqueue ⟨"a", 5⟩ [] (enqueue ⟨"b", 5⟩ [] QState.empty).2).2).1
        = ((getReadyTasks 0 (enqueue ⟨"a", 5⟩ [] (enqueue ⟨"b", 5⟩ [] QState.empty).2).2).1.take 2).map (markInProgress 0)) ∧
     List.Pairwise prioBefore (getReadyTasks 0 (enqueue ⟨"a", 5⟩ [] (enqueue ⟨"b", 5⟩ [] QState.empty).2).2).1 ∧
     ((getReadyTasks 0 (enqueue ⟨"a", 5⟩ [] (enqueue ⟨"b", 5⟩ [] QState.empty).2).2).1.map QTask.id).Nodup) :=
  ⟨⟨by unfold NodupZ; decide, by unfold IdsMatch; decide,
    by unfold SortedZ; decide, by unfold ScoresMatch; decide⟩,
   dequeue_order_spec (enqueue ⟨"a", 5⟩ [] (enqueue ⟨"b", 5⟩ [] QState.empty).2).2 0 2
     (by unfold NodupZ; decide) (by unfold IdsMatch; decide)
     (by unfold SortedZ; decide) (by unfold ScoresMatch; decide)⟩


end Orchestrator

namespace Orchestrator

theorem promote_keep (now : Int) (ids : List String) (tasks : List (String × QTask))
    (T : String) (rec : QTask) (him : IdsMatch tasks) (hg : alGet T tasks = some rec)
    (h1 : rec.status ≠ .ready) (h2 : rec.status ≠ .retrying) :
    alGet T (promoteStep now ids tasks).2 = some rec ∧
    (∀ u ∈ (promoteStep now ids tasks).1, u.id ≠ T) := by
  induction ids generalizing tasks with
  | nil => exact ⟨hg, by intro u hu; cases hu⟩
  | cons i rest ih =>
      cases hgi : alGet i tasks with
      | none =>
          rw [promoteStep_cons_none hgi]
          exact ih tasks him hg
      | some t =>
          by_cases hr1 : t.status = QStatus.ready
          · have hiT : i ≠ T := by
              intro he
              subst he
              rw [hg] at hgi
              cases hgi
              exact h1 hr1
            rw [promoteStep_cons_ready hgi hr1]
            obtain ⟨ha, hb⟩ := ih tasks him hg
            refine ⟨ha, ?_⟩
            intro u hu
            rcases List.mem_cons.mp hu with h4 | h4
            · subst h4
              rw [idsMatch_lookup him hgi]
              exact hiT
            · exact hb u h4
          · by_cases hr2 : t.status = QStatus.retrying
            · have hiT : i ≠ T := by
                intro he
                subst he
                rw [hg] at hgi
                cases hgi
                exact h2 hr2
              cases hsch : t.scheduledAt with
              | some sched =>
                  by_cases h3 : sched ≤ now
                  · rw [promoteStep_cons_promote hgi hr2 hsch h3]
                    have hti : t.id = i := idsMatch_lookup him hgi
                    have him2 : IdsMatch (alSet i ({ t with status := .ready }) tasks) :=
                      idsMatch_set him hti
                    have hg2 : alGet T (alSet i ({ t with status := .ready }) tasks) = some rec := by
                      rw [alGet_alSet_ne _ _ (Ne.symm hiT)]
                      exact hg
                    obtain ⟨ha, hb⟩ := ih _ him2 hg2
                    refine ⟨ha, ?_⟩
                    intro u hu
                    rcases List.mem_cons.mp hu with h4 | h4
                    · subst h4
                      intro hc
                      have hc2 : t.id = T := hc
                      rw [idsMatch_lookup him hgi] at hc2
                      exact hiT hc2
                    · exact hb u h4
                  · rw [promoteStep_cons_skip hgi hr1
                        (by rintro ⟨_, sc, hs, hle⟩; rw [hsch] at hs; cases hs; exact h3 hle)]
                    exact ih tasks him hg
              | none =>
                  rw [promoteStep_cons_skip hgi hr1
                      (by rintro ⟨_, sc, hs, _⟩; rw [hsch] at hs; cases hs)]
                  exact ih tasks him hg
            · rw [promoteStep_cons_skip hgi hr1 (fun hc => hr2 hc.1)]
              exact ih tasks him hg

end Orchestrator

namespace Orchestrator

theorem promote_keep_none (now : Int) (ids : List String) (tasks : List (String × QTask))
    (T : String) (him : IdsMatch tasks) (hg : alGet T tasks = none) :
    alGet T (promoteStep now ids tasks).2 = none ∧
    (∀ u ∈ (promoteStep now ids tasks).1, u.id ≠ T) := by
  induction ids generalizing tasks with
  | nil => exact ⟨hg, by intro u hu; cases hu⟩
  | cons i rest ih =>
      cases hgi : alGet i tasks with
      | none =>
          rw [promoteStep_cons_none hgi]
          exact ih tasks him hg
      | some t =>
          have hiT : i ≠ T := by
            intro he
            subst he
            rw [hg] at hgi
            cases hgi
          have htiT : t.id ≠ T := by
            rw [idsMatch_lookup him hgi]
            exact hiT
          by_cases hr1 : t.status = QStatus.ready
          · rw [promoteStep_cons_ready hgi hr1]
            obtain ⟨ha, hb⟩ := ih tasks him hg
            refine ⟨ha, ?_⟩
            intro u hu
            rcases List.mem_cons.mp hu with h4 | h4
            · subst h4
              exact htiT
            · exact hb u h4
          · by_cases hr2 : t.status = QStatus.retrying
            · cases hsch : t.scheduledAt with
              | some sched =>
                  by_cases h3 : sched ≤ now
                  · rw [promoteStep_cons_promote hgi hr2 hsch h3]
                    have hti : t.id = i := idsMatch_lookup him hgi
                    have him2 : IdsMatch (alSet i ({ t with status := .ready }) tasks) :=
                      idsMatch_set him hti
                    have hg2 : alGet T (alSet i ({ t with status := .ready }) tasks) = none := by
                      rw [alGet_alSet_ne _ _ (Ne.symm hiT)]
                      exact hg
                    obtain ⟨ha, hb⟩ := ih _ him2 hg2
                    refine ⟨ha, ?_⟩
                    intro u hu
                    rcases List.mem_cons.mp hu with h4 | h4
                    · subst h4
                      intro hc
                      have hc2 : t.id = T := hc
                      exact htiT hc2
                    · exact hb u h4
                  · rw [promoteStep_cons_skip hgi hr1
                        (by rintro ⟨_, sc, hs, hle⟩; rw [hsch] at hs; cases hs; exact h3 hle)]
                    exact ih tasks him hg
              | none =>
                  rw [promoteStep_cons_skip hgi hr1
                      (by rintro ⟨_, sc, hs, _⟩; rw [hsch] at hs; cases hs)]
                  exact ih tasks him hg
            · rw [promoteStep_cons_skip hgi hr1 (fun hc => hr2 hc.1)]
              exact ih tasks him hg

theorem promote_out_mem (now : Int) (ids : List String) (tasks : List (String × QTask))
    (him : IdsMatch tasks) :
    ∀ u ∈ (promoteStep now ids tasks).1, u.id ∈ ids := by
  induction ids generalizing tasks with
  | nil => intro u hu; cases hu
  | cons i rest ih =>
      intro u hu
      cases hgi : alGet i tasks with
      | none =>
          rw [promoteStep_cons_none hgi] at hu
          exact List.mem_cons_of_mem _ (ih tasks him u hu)
      | some t =>
          by_cases hr1 : t.status = QStatus.ready
          · rw [promoteStep_cons_ready hgi hr1] at hu
            rcases List.mem_cons.mp hu with h4 | h4
            · subst h4
              rw [idsMatch_lookup him hgi]
              simp
            · exact List.mem_cons_of_mem _ (ih tasks him u h4)
          · by_cases hr2 : t.status = QStatus.retrying
            · cases hsch : t.scheduledAt with
              | some sched =>
                  by_cases h3 : sched ≤ now
                  · rw [promoteStep_cons_promote hgi hr2 hsch h3] at hu
                    have hti : t.id = i := idsMatch_lookup him hgi
                    have him2 : IdsMatch (alSet i ({ t with status := .ready }) tasks) :=
                      idsMatch_set him hti
                    rcases List.mem_cons.mp hu with h4 | h4
                    · subst h4
                      have : ({ t with status := QStatus.ready } : QTask).id = t.id := rfl
                      rw [this, hti]
                      simp
                    · exact List.mem_cons_of_mem _ (ih _ him2 u h4)
                  · rw [promoteStep_cons_skip hgi hr1
                        (by rintro ⟨_, sc, hs, hle⟩; rw [hsch] at hs; cases hs; exact h3 hle)] at hu
                    exact List.mem_cons_of_mem _ (ih tasks him u hu)
              | none =>
                  rw [promoteStep_cons_skip hgi hr1
                      (by rintro ⟨_, sc, hs, _⟩; rw [hsch] at hs; cases hs)] at hu
                  exact List.mem_cons_of_mem _ (ih tasks him u hu)
            · rw [promoteStep_cons_skip hgi hr1 (fun hc => hr2 hc.1)] at hu
              exact List.mem_cons_of_mem _ (ih tasks him u hu)

theorem promote_idsMatch (now : Int) (ids : List String) (tasks : List (String × QTask))
    (him : IdsMatch tasks) : IdsMatch (promoteStep now ids tasks).2 := by
  induction ids generalizing tasks with
  | nil => exact him
  | cons i rest ih =>
      cases hgi : alGet i tasks with
      | none =>
          rw [promoteStep_cons_none hgi]
          exact ih tasks him
      | some t =>
          by_cases hr1 : t.status = QStatus.ready
          · rw [promoteStep_cons_ready hgi hr1]
            exact ih tasks him
          · by_cases hr2 : t.status = QStatus.retrying
            · cases hsch : t.scheduledAt with
              | some sched =>
                  by_cases h3 : sched ≤ now
                  · rw [promoteStep_cons_promote hgi hr2 hsch h3]
                    have hti : t.id = i := idsMatch_lookup him hgi
                    exact ih _ (idsMatch_set him hti)
                  · rw [promoteStep_cons_skip hgi hr1
                        (by rintro ⟨_, sc, hs, hle⟩; rw [hsch] at hs; cases hs; exact h3 hle)]
                    exact ih tasks him
              | none =>
                  rw [promoteStep_cons_skip hgi hr1
                      (by rintro ⟨_, sc, hs, _⟩; rw [hsch] at hs; cases hs)]
                  exact ih tasks him
            · rw [promoteStep_cons_skip hgi hr1 (fun hc => hr2 hc.1)]
              exact ih tasks him

end Orchestrator

namespace Orchestrator

theorem resolveGo_cons_skip {cid id : String} {rest : List String} {s : QState}
    (h : cid ∉ depsOf s id) :
    resolveGo cid (id :: rest) s = resolveGo cid rest s := by
  rw [resolveGo.eq_def]
  simp [h]

theorem resolveGo_cons_rem {cid id : String} {rest : List String} {s : QState}
    (h : cid ∈ depsOf s id) (hlen : ¬((depsOf s id).filter (· ≠ cid)).length = 0) :
    resolveGo cid (id :: rest) s
      = resolveGo cid rest ({ s with deps := alSet id ((depsOf s id).filter (· ≠ cid)) s.deps }) := by
  have hlen2 : ¬(∀ a ∈ depsOf s id, a = cid) := by simpa using hlen
  rw [resolveGo.eq_def]
  simp [h, hlen2]

theorem resolveGo_cons_rem_none {cid id : String} {rest : List String} {s : QState}
    (h : cid ∈ depsOf s id) (hlen : ((depsOf s id).filter (· ≠ cid)).length = 0)
    (hg : alGet id s.tasks = none) :
    resolveGo cid (id :: rest) s
      = resolveGo cid rest ({ s with deps := alSet id ((depsOf s id).filter (· ≠ cid)) s.deps }) := by
  have hlen2 : ∀ a ∈ depsOf s id, a = cid := by simpa using hlen
  rw [resolveGo.eq_def]
  simp [h, hlen2, hg]

theorem resolveGo_cons_rem_np {cid id : String} {rest : List String} {s : QState} {t : QTask}
    (h : cid ∈ depsOf s id) (hlen : ((depsOf s id).filter (· ≠ cid)).length = 0)
    (hg : alGet id s.tasks = some t) (hnp : ¬t.status = QStatus.pending) :
    resolveGo cid (id :: rest) s
      = resolveGo cid rest ({ s with deps := alSet id ((depsOf s id).filter (· ≠ cid)) s.deps }) := by
  have hlen2 : ∀ a ∈ depsOf s id, a = cid := by simpa using hlen
  rw [resolveGo.eq_def]
  simp [h, hlen2, hg, hnp]

theorem resolveGo_cons_ready {cid id : String} {rest : List String} {s : QState} {t : QTask}
    (h : cid ∈ depsOf s id) (hlen : ((depsOf s id).filter (· ≠ cid)).length = 0)
    (hg : alGet id s.tasks = some t) (hp : t.status = QStatus.pending) :
    resolveGo cid (id :: rest) s
      = resolveGo cid rest ({ s with deps := alSet id ((depsOf s id).filter (· ≠ cid)) s.deps, tasks := alSet id ({ t with status := .ready }) s.tasks }) := by
  have hlen2 : ∀ a ∈ depsOf s id, a = cid := by simpa using hlen
  rw [resolveGo.eq_def]
  simp [h, hlen2, hg, hp]
  rw [if_pos hlen2]

end Orchestrator

namespace Orchestrator

theorem resolveGo_keepR (cid T : String) (R : List String) (ids : List String) :
    ∀ s : QState, ∀ rec : QTask, alGet T s.tasks = some rec → rec.status = .pending →
    (∀ d ∈ R, d ∈ depsOf s T) → cid ∉ R → R ≠ [] →
    alGet T (resolveGo cid ids s).tasks = some rec ∧
    (∀ d ∈ R, d ∈ depsOf (resolveGo cid ids s) T) := by
  induction ids with
  | nil => intro s rec hrec _ hsub _ _; exact ⟨hrec, hsub⟩
  | cons id rest ih =>
      intro s rec hrec hp hsub hcid hR
      by_cases hmem : cid ∈ depsOf s id
      · by_cases hidT : id = T
        · subst hidT
          have hsub' : ∀ d ∈ R, d ∈ (depsOf s id).filter (· ≠ cid) := by
            intro d hd
            refine List.mem_filter.mpr ⟨hsub d hd, ?_⟩
            simp only [decide_eq_true_iff]
            intro he
            subst he
            exact hcid hd
          have hlen : ¬((depsOf s id).filter (· ≠ cid)).length = 0 := by
            obtain ⟨d₀, hd₀⟩ := List.exists_mem_of_ne_nil R hR
            have := hsub' d₀ hd₀
            intro hc
            rw [List.length_eq_zero] at hc
            rw [hc] at this
            cases this
          rw [resolveGo_cons_rem hmem hlen]
          refine ih _ rec hrec hp ?_ hcid hR
          intro d hd
          unfold depsOf
          rw [alGet_alSet_self]
          exact hsub' d hd
        · have hfr1 : ∀ (s' : QState), s'.tasks = s.tasks → alGet T s'.tasks = some rec :=
            fun s' hh => by rw [hh]; exact hrec
          by_cases hlen : ((depsOf s id).filter (· ≠ cid)).length = 0
          · cases hgid : alGet id s.tasks with
            | none =>
                rw [resolveGo_cons_rem_none hmem hlen hgid]
                refine ih _ rec hrec hp ?_ hcid hR
                intro d hd
                unfold depsOf
                rw [alGet_alSet_ne _ _ (fun he => hidT he.symm)]
                exact hsub d hd
            | some t =>
                by_cases htp : t.status = QStatus.pending
                · rw [resolveGo_cons_ready hmem hlen hgid htp]
                  refine ih _ rec ?_ hp ?_ hcid hR
                  · show alGet T (alSet id ({ t with status := .ready }) s.tasks) = some rec
                    rw [alGet_alSet_ne _ _ (fun he => hidT he.symm)]
                    exact hrec
                  · intro d hd
                    unfold depsOf
                    rw [alGet_alSet_ne _ _ (fun he => hidT he.symm)]
                    exact hsub d hd
                · rw [resolveGo_cons_rem_np hmem hlen hgid htp]
                  refine ih _ rec hrec hp ?_ hcid hR
                  intro d hd
                  unfold depsOf
                  rw [alGet_alSet_ne _ _ (fun he => hidT he.symm)]
                  exact hsub d hd
          · rw [resolveGo_cons_rem hmem hlen]
            refine ih _ rec hrec hp ?_ hcid hR
            intro d hd
            unfold depsOf
            rw [alGet_alSet_ne _ _ (fun he => hidT he.symm)]
            exact hsub d hd
      · rw [resolveGo_cons_skip hmem]
        exact ih s rec hrec hp hsub hcid hR

theorem resolveGo_frameT (cid T : String) (ids : List String) :
    ∀ s : QState, cid ∉ depsOf s T →
    alGet T (resolveGo cid ids s).tasks = alGet T s.tasks ∧
    depsOf (resolveGo cid ids s) T = depsOf s T := by
  induction ids with
  | nil => intro s _; exact ⟨rfl, rfl⟩
  | cons id rest ih =>
      intro s hout
      by_cases hmem : cid ∈ depsOf s id
      · have hidT : id ≠ T := by
          intro he
          subst he
          exact hout hmem
        have hdeps : ∀ dl, depsOf ({ s with deps := alSet id dl s.deps }) T = depsOf s T := by
          intro dl
          unfold depsOf
          rw [alGet_alSet_ne _ _ (Ne.symm hidT)]
        by_cases hlen : ((depsOf s id).filter (· ≠ cid)).length = 0
        · cases hgid : alGet id s.tasks with
          | none =>
              rw [resolveGo_cons_rem_none hmem hlen hgid]
              obtain ⟨ha, hb⟩ := ih ({ s with deps := alSet id ((depsOf s id).filter (· ≠ cid)) s.deps }) (by rw [hdeps]; exact hout)
              rw [hdeps] at hb
              exact ⟨ha, hb⟩
          | some t =>
              by_cases htp : t.status = QStatus.pending
              · rw [resolveGo_cons_ready hmem hlen hgid htp]
                have hout' : cid ∉ depsOf ({ s with deps := alSet id ((depsOf s id).filter (· ≠ cid)) s.deps, tasks := alSet id ({ t with status := .ready }) s.tasks }) T := by
                  show cid ∉ ((alGet T (alSet id ((depsOf s id).filter (· ≠ cid)) s.deps)).getD [])
                  rw [alGet_alSet_ne _ _ (Ne.symm hidT)]
                  exact hout
                obtain ⟨ha, hb⟩ := ih _ hout'
                constructor
                · rw [ha]
                  show alGet T (alSet id ({ t with status := .ready }) s.tasks) = alGet T s.tasks
                  rw [alGet_alSet_ne _ _ (Ne.symm hidT)]
                · rw [hb]
                  show ((alGet T (alSet id ((depsOf s id).filter (· ≠ cid)) s.deps)).getD []) = depsOf s T
                  rw [alGet_alSet_ne _ _ (Ne.symm hidT)]
                  rfl
              · rw [resolveGo_cons_rem_np hmem hlen hgid htp]
                obtain ⟨ha, hb⟩ := ih ({ s with deps := alSet id ((depsOf s id).filter (· ≠ cid)) s.deps }) (by rw [hdeps]; exact hout)
                rw [hdeps] at hb
                exact ⟨ha, hb⟩
        · rw [resolveGo_cons_rem hmem hlen]
          obtain ⟨ha, hb⟩ := ih ({ s with deps := alSet id ((depsOf s id).filter (· ≠ cid)) s.deps }) (by rw [hdeps]; exact hout)
          rw [hdeps] at hb
          exact ⟨ha, hb⟩
      · rw [resolveGo_cons_skip hmem]
        exact ih s hout

theorem resolveGo_np (cid T : String) (ids : List String) :
    ∀ s : QState, ∀ rec : QTask, alGet T s.tasks = some rec → rec.status ≠ .pending →
    alGet T (resolveGo cid ids s).tasks = some rec := by
  induction ids with
  | nil => intro s rec hrec _; exact hrec
  | cons id rest ih =>
      intro s rec hrec hnp
      by_cases hmem : cid ∈ depsOf s id
      · by_cases hlen : ((depsOf s id).filter (· ≠ cid)).length = 0
        · cases hgid : alGet id s.tasks with
          | none =>
              rw [resolveGo_cons_rem_none hmem hlen hgid]
              exact ih _ rec hrec hnp
          | some t =>
              by_cases htp : t.status = QStatus.pending
              · have hidT : id ≠ T := by
                  intro he
                  subst he
                  rw [hrec] at hgid
                  cases hgid
                  exact hnp htp
                rw [resolveGo_cons_ready hmem hlen hgid htp]
                refine ih _ rec ?_ hnp
                show alGet T (alSet id ({ t with status := .ready }) s.tasks) = some rec
                rw [alGet_alSet_ne _ _ (Ne.symm hidT)]
                exact hrec
              · rw [resolveGo_cons_rem_np hmem hlen hgid htp]
                exact ih _ rec hrec hnp
        · rw [resolveGo_cons_rem hmem hlen]
          exact ih _ rec hrec hnp
      · rw [resolveGo_cons_skip hmem]
        exact ih s rec hrec hnp

theorem resolveGo_idsMatch (cid : String) (ids : List String) :
    ∀ s : QState, IdsMatch s.tasks → IdsMatch (resolveGo cid ids s).tasks := by
  induction ids with
  | nil => intro s him; exact him
  | cons id rest ih =>
      intro s him
      by_cases hmem : cid ∈ depsOf s id
      · by_cases hlen : ((depsOf s id).filter (· ≠ cid)).length = 0
        · cases hgid : alGet id s.tasks with
          | none =>
              rw [resolveGo_cons_rem_none hmem hlen hgid]
              exact ih _ him
          | some t =>
              by_cases htp : t.status = QStatus.pending
              · rw [resolveGo_cons_ready hmem hlen hgid htp]
                have hti : t.id = id := idsMatch_lookup him hgid
                refine ih _ ?_
                show IdsMatch (alSet id ({ t with status := .ready }) s.tasks)
                exact idsMatch_set him hti
              · rw [resolveGo_cons_rem_np hmem hlen hgid htp]
                exact ih _ him
        · rw [resolveGo_cons_rem hmem hlen]
          exact ih _ him
      · rw [resolveGo_cons_skip hmem]
        exact ih s him

end Orchestrator

namespace Orchestrator

theorem zKeys_zrem_mem (m T : String) (z : List (String × Int)) :
    T ∈ zKeys (zrem m z) ↔ T ∈ zKeys z ∧ T ≠ m := by
  unfold zrem zKeys
  simp [List.mem_filter, List.mem_map]

theorem alGet_filter_notin {α : Type} (T : String) (ids : List String)
    (l : List (String × α)) (h : T ∉ ids) :
    alGet T (l.filter (fun p => p.1 ∉ ids)) = alGet T l := by
  induction l with
  | nil => rfl
  | cons p rest ih =>
      cases p with
      | mk a b =>
          rw [List.filter_cons]
          by_cases hp : a ∈ ids
          · have hpT : a ≠ T := by
              intro he
              rw [he] at hp
              exact h hp
            rw [if_neg (by simp [hp])]
            rw [ih]
            conv_rhs => rw [alGet.eq_def]
            simp [hpT]
          · rw [if_pos (by simp [hp])]
            by_cases hpT : a = T
            · subst hpT
              simp [alGet]
            · simpa [alGet, hpT] using ih

theorem idsMatch_filter (tasks : List (String × QTask)) (p : String × QTask → Bool)
    (him : IdsMatch tasks) : IdsMatch (tasks.filter p) :=
  fun q hq => him q (List.mem_of_mem_filter hq)

theorem dequeue_tasks (now : Int) (s : QState) :
    (dequeue now s).2.tasks = (promoteStep now (zKeys s.zset) s.tasks).2 ∨
    (∃ t, t ∈ (promoteStep now (zKeys s.zset) s.tasks).1 ∧
      (dequeue now s).2.tasks
        = alSet t.id (markInProgress now t) (promoteStep now (zKeys s.zset) s.tasks).2) := by
  cases hL : (promoteStep now (zKeys s.zset) s.tasks).1 with
  | nil =>
      left
      unfold dequeue getReadyTasks
      simp only [hL]
  | cons t rest =>
      right
      refine ⟨t, List.mem_cons_self _ _, ?_⟩
      unfold dequeue getReadyTasks markInProgress
      simp only [hL]

theorem idsMatch_exec (s : QState) (op : QOp) (him : IdsMatch s.tasks) :
    IdsMatch (execOp s op).tasks := by
  cases op with
  | enqueueOp t ds =>
      show IdsMatch ((enqueue t ds s).2).tasks
      unfold enqueue
      by_cases hds : ds = [] <;> simp only [hds, if_true, if_false, reduceIte] <;>
        exact idsMatch_set him rfl
  | dequeueOp now =>
      show IdsMatch ((dequeue now s).2).tasks
      rcases dequeue_tasks now s with h | ⟨t, _, h⟩
      · rw [h]
        exact promote_idsMatch now _ _ him
      · rw [h]
        exact idsMatch_set (promote_idsMatch now _ _ him) rfl
  | peekOp now =>
      show IdsMatch ((peek now s).2).tasks
      exact promote_idsMatch now _ _ him
  | getReadyOp now =>
      show IdsMatch ((getReadyTasks now s).2).tasks
      exact promote_idsMatch now _ _ him
  | markCompleteOp id r now =>
      show IdsMatch (markComplete id r now s).tasks
      unfold markComplete resolveDependencies
      cases hg : alGet id s.tasks with
      | none =>
          simp only
          apply resolveGo_idsMatch
          exact him
      | some t =>
          simp only
          have hti : t.id = id := idsMatch_lookup him hg
          apply resolveGo_idsMatch
          show IdsMatch (alSet id ({ t with status := .completed, completedAt := some now }) s.tasks)
          exact idsMatch_set him hti
  | markFailedOp id msg now =>
      show IdsMatch (markFailed id msg now s).tasks
      unfold markFailed
      cases hg : alGet id s.tasks with
      | none => exact him
      | some t =>
          simp only
          have hti : t.id = id := idsMatch_lookup him hg
          by_cases hrc : t.retryCount + 1 < t.maxRetries
          · simp only [hrc, if_true, reduceIte]
            exact idsMatch_set him hti
          · simp only [hrc, if_false, reduceIte]
            exact idsMatch_set him hti
  | clearOp =>
      show IdsMatch (clear s).tasks
      unfold clear
      by_cases hz : zKeys s.zset = []
      · simp only [hz, if_true, reduceIte]
        exact him
      · simp only [hz, if_false, reduceIte]
        exact idsMatch_filter _ _ him

end Orchestrator

namespace Orchestrator

theorem dequeue_deps (now : Int) (s : QState) : (dequeue now s).2.deps = s.deps := by
  cases hL : (promoteStep now (zKeys s.zset) s.tasks).1 with
  | nil =>
      unfold dequeue getReadyTasks
      simp only [hL]
  | cons t rest =>
      unfold dequeue getReadyTasks
      simp only [hL]

theorem blocked_step (T : String) (R : List String) (s : QState) (op : QOp)
    (hR : R ≠ []) (him : IdsMatch s.tasks)
    (hP1 : inProgressOnly s op) (hP2 : notEnqOf T op)
    (hP3 : ∀ d ∈ R, notCompleteOf d op)
    (hinv : T ∉ zKeys s.zset ∨
      ∃ rec, alGet T s.tasks = some rec ∧ rec.status = .pending ∧ (∀ d ∈ R, d ∈ depsOf s T)) :
    T ∉ zKeys (execOp s op).zset ∨
      ∃ rec, alGet T (execOp s op).tasks = some rec ∧ rec.status = .pending ∧
        (∀ d ∈ R, d ∈ depsOf (execOp s op) T) := by
  cases op with
  | enqueueOp t ds =>
      have hne : t.id ≠ T := hP2
      rcases hinv with hl | ⟨rec, hrec, hp, hdep⟩
      · left
        show T ∉ zKeys ((enqueue t ds s).2).zset
        rw [enqueue_zset]
        intro hc
        exact hl ((zKeys_zadd_mem t.id T (-t.priority) s.zset (Ne.symm hne)).mp hc)
      · right
        refine ⟨rec, ?_, hp, ?_⟩
        · show alGet T ((enqueue t ds s).2).tasks = some rec
          unfold enqueue
          by_cases hds : ds = [] <;> simp only [hds, if_true, if_false, reduceIte] <;>
            rw [alGet_alSet_ne _ _ (Ne.symm hne)] <;> exact hrec
        · intro d hd
          show d ∈ depsOf ((enqueue t ds s).2) T
          unfold enqueue depsOf
          by_cases hds : ds = []
          · simp only [hds, if_true, reduceIte]
            exact hdep d hd
          · simp only [hds, if_false, reduceIte]
            rw [alGet_alSet_ne _ _ (Ne.symm hne)]
            exact hdep d hd
  | dequeueOp now =>
      rcases hinv with hl | ⟨rec, hrec, hp, hdep⟩
      · left
        show T ∉ zKeys ((dequeue now s).2).zset
        rw [dequeue_zset]
        exact hl
      · right
        have hnr : rec.status ≠ QStatus.ready := by rw [hp]; intro h; cases h
        have hnt : rec.status ≠ QStatus.retrying := by rw [hp]; intro h; cases h
        obtain ⟨hkeep, hnout⟩ := promote_keep now (zKeys s.zset) s.tasks T rec him hrec hnr hnt
        refine ⟨rec, ?_, hp, ?_⟩
        · show alGet T ((dequeue now s).2).tasks = some rec
          rcases dequeue_tasks now s with h | ⟨u, hu, h⟩
          · rw [h]
            exact hkeep
          · rw [h]
            rw [alGet_alSet_ne _ _ (Ne.symm (hnout u hu))]
            exact hkeep
        · intro d hd
          show d ∈ depsOf ((dequeue now s).2) T
          unfold depsOf
          rw [dequeue_deps]
          exact hdep d hd
  | peekOp now =>
      rcases hinv with hl | ⟨rec, hrec, hp, hdep⟩
      · left
        exact hl
      · right
        have hnr : rec.status ≠ QStatus.ready := by rw [hp]; intro h; cases h
        have hnt : rec.status ≠ QStatus.retrying := by rw [hp]; intro h; cases h
        obtain ⟨hkeep, _⟩ := promote_keep now (zKeys s.zset) s.tasks T rec him hrec hnr hnt
        exact ⟨rec, hkeep, hp, hdep⟩
  | getReadyOp now =>
      rcases hinv with hl | ⟨rec, hrec, hp, hdep⟩
      · left
        exact hl
      · right
        have hnr : rec.status ≠ QStatus.ready := by rw [hp]; intro h; cases h
        have hnt : rec.status ≠ QStatus.retrying := by rw [hp]; intro h; cases h
        obtain ⟨hkeep, _⟩ := promote_keep now (zKeys s.zset) s.tasks T rec him hrec hnr hnt
        exact ⟨rec, hkeep, hp, hdep⟩
  | markCompleteOp c r now =>
      by_cases hcT : c = T
      · left
        show T ∉ zKeys (markComplete c r now s).zset
        rw [markComplete_zset]
        rw [zKeys_zrem_mem]
        rintro ⟨_, hne⟩
        exact hne (Eq.symm hcT)
      · have hcR : c ∉ R := by
          intro hcr
          exact (hP3 c hcr) rfl
        rcases hinv with hl | ⟨rec, hrec, hp, hdep⟩
        · left
          show T ∉ zKeys (markComplete c r now s).zset
          rw [markComplete_zset, zKeys_zrem_mem]
          rintro ⟨hmem, _⟩
          exact hl hmem
        · right
          show ∃ rec, alGet T (markComplete c r now s).tasks = some rec ∧ rec.status = .pending ∧
              ∀ d ∈ R, d ∈ depsOf (markComplete c r now s) T
          unfold markComplete resolveDependencies
          cases hgc : alGet c s.tasks with
          | none =>
              simp only
              obtain ⟨ha, hb⟩ := resolveGo_keepR c T R (zKeys (zrem c s.zset)) ({ s with zset := zrem c s.zset, results := alSet c r s.results }) rec hrec hp hdep hcR hR
              exact ⟨rec, ha, hp, hb⟩
          | some u =>
              simp only
              have hrec' : alGet T (alSet c ({ u with status := .completed, completedAt := some now }) s.tasks) = some rec := by
                rw [alGet_alSet_ne _ _ (fun he => hcT (Eq.symm he))]
                exact hrec
              obtain ⟨ha, hb⟩ := resolveGo_keepR c T R (zKeys (zrem c s.zset)) ({ s with tasks := alSet c ({ u with status := .completed, completedAt := some now }) s.tasks, hres := alSet c r s.hres, zset := zrem c s.zset, results := alSet c r s.results }) rec hrec' hp hdep hcR hR
              exact ⟨rec, ha, hp, hb⟩
  | markFailedOp id msg now =>
      rcases hinv with hl | ⟨rec, hrec, hp, hdep⟩
      · left
        show T ∉ zKeys (markFailed id msg now s).zset
        rw [markFailed_zset]
        exact hl
      · by_cases hidT : id = T
        · subst hidT
          rcases hP1 with hnone | ⟨u, hu, hus⟩
          · rw [hrec] at hnone
            cases hnone
          · rw [hrec] at hu
            cases hu
            rw [hp] at hus
            cases hus
        · right
          refine ⟨rec, ?_, hp, ?_⟩
          · show alGet T (markFailed id msg now s).tasks = some rec
            unfold markFailed
            cases hg : alGet id s.tasks with
            | none => exact hrec
            | some u =>
                simp only
                rw [alGet_alSet_ne _ _ (fun he => hidT he.symm)]
                exact hrec
          · intro d hd
            show d ∈ depsOf (markFailed id msg now s) T
            unfold markFailed depsOf
            cases hg : alGet id s.tasks with
            | none => exact hdep d hd
            | some u => exact hdep d hd
  | clearOp =>
      by_cases hz : zKeys s.zset = []
      · have hcl : clear s = s := by
          unfold clear
          simp [hz]
        show T ∉ zKeys (clear s).zset ∨ ∃ rec, alGet T (clear s).tasks = some rec ∧ rec.status = .pending ∧ ∀ d ∈ R, d ∈ depsOf (clear s) T
        rw [hcl]
        exact hinv
      · left
        show T ∉ zKeys (clear s).zset
        rw [clear_zset]
        intro hc
        simp [zKeys] at hc

end Orchestrator

namespace Orchestrator

theorem blocked_trace (T : String) (R : List String) (hR : R ≠ []) :
    ∀ (ops : List QOp) (s s' : QState),
    opSeq (fun st op => inProgressOnly st op ∧ notEnqOf T op ∧ (∀ d ∈ R, notCompleteOf d op)) s ops s' →
    IdsMatch s.tasks →
    (T ∉ zKeys s.zset ∨ ∃ rec, alGet T s.tasks = some rec ∧ rec.status = .pending ∧ (∀ d ∈ R, d ∈ depsOf s T)) →
    IdsMatch s'.tasks ∧
    (T ∉ zKeys s'.zset ∨ ∃ rec, alGet T s'.tasks = some rec ∧ rec.status = .pending ∧ (∀ d ∈ R, d ∈ depsOf s' T)) := by
  intro ops
  induction ops with
  | nil =>
      intro s s' hseq him hinv
      unfold opSeq at hseq
      subst hseq
      exact ⟨him, hinv⟩
  | cons op rest ih =>
      intro s s' hseq him hinv
      obtain ⟨⟨h1, h2, h3⟩, hrest⟩ := hseq
      exact ih (execOp s op) s' hrest (idsMatch_exec s op him)
        (blocked_step T R s op hR him h1 h2 h3 hinv)

theorem blocked_not_ready (T : String) (s : QState) (him : IdsMatch s.tasks)
    (hinv : T ∉ zKeys s.zset ∨ ∃ rec, alGet T s.tasks = some rec ∧ rec.status = .pending) :
    ∀ now : Int, ∀ u ∈ (getReadyTasks now s).1, u.id ≠ T := by
  intro now u hu
  rcases hinv with hl | ⟨rec, hrec, hp⟩
  · intro he
    apply hl
    rw [← he]
    exact promote_out_mem now (zKeys s.zset) s.tasks him u hu
  · have hnr : rec.status ≠ QStatus.ready := by rw [hp]; intro h; cases h
    have hnt : rec.status ≠ QStatus.retrying := by rw [hp]; intro h; cases h
    exact (promote_keep now (zKeys s.zset) s.tasks T rec him hrec hnr hnt).2 u hu

theorem resolveGo_frame_keys (cid tid : String) (ids : List String) :
    ∀ s : QState, tid ∉ ids →
    alGet tid (resolveGo cid ids s).tasks = alGet tid s.tasks ∧
    depsOf (resolveGo cid ids s) tid = depsOf s tid := by
  induction ids with
  | nil => intro s _; exact ⟨rfl, rfl⟩
  | cons i rest ih =>
      intro s hnin
      have hit : i ≠ tid := fun he => hnin (by simp [he])
      have hrest : tid ∉ rest := fun hr => hnin (by simp [hr])
      by_cases hmem : cid ∈ depsOf s i
      · have hdeps : ∀ dl, depsOf ({ s with deps := alSet i dl s.deps }) tid = depsOf s tid := by
          intro dl
          unfold depsOf
          rw [alGet_alSet_ne _ _ (Ne.symm hit)]
        by_cases hlen : ((depsOf s i).filter (· ≠ cid)).length = 0
        · cases hgid : alGet i s.tasks with
          | none =>
              rw [resolveGo_cons_rem_none hmem hlen hgid]
              obtain ⟨ha, hb⟩ := ih ({ s with deps := alSet i ((depsOf s i).filter (· ≠ cid)) s.deps }) hrest
              rw [hdeps] at hb
              exact ⟨ha, hb⟩
          | some t =>
              by_cases htp : t.status = QStatus.pending
              · rw [resolveGo_cons_ready hmem hlen hgid htp]
                obtain ⟨ha, hb⟩ := ih ({ s with deps := alSet i ((depsOf s i).filter (· ≠ cid)) s.deps, tasks := alSet i ({ t with status := .ready }) s.tasks }) hrest
                constructor
                · rw [ha]
                  show alGet tid (alSet i ({ t with status := .ready }) s.tasks) = alGet tid s.tasks
                  rw [alGet_alSet_ne _ _ (Ne.symm hit)]
                · rw [hb]
                  show ((alGet tid (alSet i ((depsOf s i).filter (· ≠ cid)) s.deps)).getD []) = depsOf s tid
                  rw [alGet_alSet_ne _ _ (Ne.symm hit)]
                  rfl
              · rw [resolveGo_cons_rem_np hmem hlen hgid htp]
                obtain ⟨ha, hb⟩ := ih ({ s with deps := alSet i ((depsOf s i).filter (· ≠ cid)) s.deps }) hrest
                rw [hdeps] at hb
                exact ⟨ha, hb⟩
        · rw [resolveGo_cons_rem hmem hlen]
          obtain ⟨ha, hb⟩ := ih ({ s with deps := alSet i ((depsOf s i).filter (· ≠ cid)) s.deps }) hrest
          rw [hdeps] at hb
          exact ⟨ha, hb⟩
      · rw [resolveGo_cons_skip hmem]
        exact ih s hrest

end Orchestrator

namespace Orchestrator

theorem filter_ne_of_not_mem {l : List String} {cid : String} (h : cid ∉ l) :
    l.filter (· ≠ cid) = l := by
  refine List.filter_eq_self.mpr ?_
  intro a ha
  simp only [decide_eq_true_iff]
  intro he
  subst he
  exact h ha

theorem resolveGo_exact (cid tid : String) :
    ∀ (ids : List String) (s : QState), tid ∈ ids → ids.Nodup →
    depsOf (resolveGo cid ids s) tid = (depsOf s tid).filter (· ≠ cid) ∧
    (∀ rec, alGet tid s.tasks = some rec → rec.status = .pending →
      cid ∈ depsOf s tid → ((depsOf s tid).filter (· ≠ cid)).length = 0 →
      alGet tid (resolveGo cid ids s).tasks = some ({ rec with status := .ready })) := by
  intro ids
  induction ids with
  | nil => intro s hmem; cases hmem
  | cons i rest ih =>
      intro s hmem hnd
      have hirest : i ∉ rest := (List.nodup_cons.mp hnd).1
      have hnd' : rest.Nodup := (List.nodup_cons.mp hnd).2
      by_cases hit : i = tid
      · subst hit
        by_cases hdl : cid ∈ depsOf s i
        · by_cases hlen : ((depsOf s i).filter (· ≠ cid)).length = 0
          · cases hgid : alGet i s.tasks with
            | none =>
                rw [resolveGo_cons_rem_none hdl hlen hgid]
                obtain ⟨_, hb⟩ := resolveGo_frame_keys cid i rest ({ s with deps := alSet i ((depsOf s i).filter (· ≠ cid)) s.deps }) hirest
                constructor
                · rw [hb]
                  show ((alGet i (alSet i ((depsOf s i).filter (· ≠ cid)) s.deps)).getD []) = _
                  rw [alGet_alSet_self]; rfl
                · intro rec hrec
                  cases hrec
            | some t =>
                by_cases htp : t.status = QStatus.pending
                · rw [resolveGo_cons_ready hdl hlen hgid htp]
                  obtain ⟨ha, hb⟩ := resolveGo_frame_keys cid i rest ({ s with deps := alSet i ((depsOf s i).filter (· ≠ cid)) s.deps, tasks := alSet i ({ t with status := .ready }) s.tasks }) hirest
                  constructor
                  · rw [hb]
                    show ((alGet i (alSet i ((depsOf s i).filter (· ≠ cid)) s.deps)).getD []) = _
                    rw [alGet_alSet_self]; rfl
                  · intro rec hrec _ _ _
                    cases hrec
                    rw [ha]
                    show alGet i (alSet i ({ t with status := .ready }) s.tasks) = _
                    rw [alGet_alSet_self]
                · rw [resolveGo_cons_rem_np hdl hlen hgid htp]
                  obtain ⟨_, hb⟩ := resolveGo_frame_keys cid i rest ({ s with deps := alSet i ((depsOf s i).filter (· ≠ cid)) s.deps }) hirest
                  constructor
                  · rw [hb]
                    show ((alGet i (alSet i ((depsOf s i).filter (· ≠ cid)) s.deps)).getD []) = _
                    rw [alGet_alSet_self]; rfl
                  · intro rec hrec hp
                    cases hrec
                    exact absurd hp htp
          · rw [resolveGo_cons_rem hdl hlen]
            obtain ⟨_, hb⟩ := resolveGo_frame_keys cid i rest ({ s with deps := alSet i ((depsOf s i).filter (· ≠ cid)) s.deps }) hirest
            constructor
            · rw [hb]
              show ((alGet i (alSet i ((depsOf s i).filter (· ≠ cid)) s.deps)).getD []) = _
              rw [alGet_alSet_self]; rfl
            · intro rec _ _ _ hlen0
              exact absurd hlen0 hlen
        · rw [resolveGo_cons_skip hdl]
          obtain ⟨_, hb⟩ := resolveGo_frame_keys cid i rest s hirest
          constructor
          · rw [hb, filter_ne_of_not_mem hdl]
          · intro rec _ _ hcid _
            exact absurd hcid hdl
      · have htidrest : tid ∈ rest := by
          rcases List.mem_cons.mp hmem with h | h
          · exact absurd h.symm hit
          · exact h
        by_cases hdl : cid ∈ depsOf s i
        · by_cases hlen : ((depsOf s i).filter (· ≠ cid)).length = 0
          · cases hgid : alGet i s.tasks with
            | none =>
                rw [resolveGo_cons_rem_none hdl hlen hgid]
                obtain ⟨ha, hb⟩ := ih ({ s with deps := alSet i ((depsOf s i).filter (· ≠ cid)) s.deps }) htidrest hnd'
                have hd1 : depsOf ({ s with deps := alSet i ((depsOf s i).filter (· ≠ cid)) s.deps }) tid = depsOf s tid := by
                  show ((alGet tid (alSet i ((depsOf s i).filter (· ≠ cid)) s.deps)).getD []) = _
                  rw [alGet_alSet_ne _ _ (fun he => hit he.symm)]
                  rfl
                rw [hd1] at ha hb
                exact ⟨ha, hb⟩
            | some t =>
                by_cases htp : t.status = QStatus.pending
                · rw [resolveGo_cons_ready hdl hlen hgid htp]
                  obtain ⟨ha, hb⟩ := ih ({ s with deps := alSet i ((depsOf s i).filter (· ≠ cid)) s.deps, tasks := alSet i ({ t with status := .ready }) s.tasks }) htidrest hnd'
                  have hd1 : depsOf ({ s with deps := alSet i ((depsOf s i).filter (· ≠ cid)) s.deps, tasks := alSet i ({ t with status := .ready }) s.tasks }) tid = depsOf s tid := by
                    show ((alGet tid (alSet i ((depsOf s i).filter (· ≠ cid)) s.deps)).getD []) = _
                    rw [alGet_alSet_ne _ _ (fun he => hit he.symm)]
                    rfl
                  rw [hd1] at ha hb
                  refine ⟨ha, ?_⟩
                  intro rec hrec hp hcid hlen0
                  refine hb rec ?_ hp hcid hlen0
                  show alGet tid (alSet i ({ t with status := .ready }) s.tasks) = some rec
                  rw [alGet_alSet_ne _ _ (fun he => hit he.symm)]
                  exact hrec
                · rw [resolveGo_cons_rem_np hdl hlen hgid htp]
                  obtain ⟨ha, hb⟩ := ih ({ s with deps := alSet i ((depsOf s i).filter (· ≠ cid)) s.deps }) htidrest hnd'
                  have hd1 : depsOf ({ s with deps := alSet i ((depsOf s i).filter (· ≠ cid)) s.deps }) tid = depsOf s tid := by
                    show ((alGet tid (alSet i ((depsOf s i).filter (· ≠ cid)) s.deps)).getD []) = _
                    rw [alGet_alSet_ne _ _ (fun he => hit he.symm)]
                    rfl
                  rw [hd1] at ha hb
                  exact ⟨ha, hb⟩
          · rw [resolveGo_cons_rem hdl hlen]
            obtain ⟨ha, hb⟩ := ih ({ s with deps := alSet i ((depsOf s i).filter (· ≠ cid)) s.deps }) htidrest hnd'
            have hd1 : depsOf ({ s with deps := alSet i ((depsOf s i).filter (· ≠ cid)) s.deps }) tid = depsOf s tid := by
              show ((alGet tid (alSet i ((depsOf s i).filter (· ≠ cid)) s.deps)).getD []) = _
              rw [alGet_alSet_ne _ _ (fun he => hit he.symm)]
              rfl
            rw [hd1] at ha hb
            exact ⟨ha, hb⟩
        · rw [resolveGo_cons_skip hdl]
          exact ih s htidrest hnd'


theorem nodup_zrem (c : String) (z : List (String × Int)) (h : (zKeys z).Nodup) :
    (zKeys (zrem c z)).Nodup := by
  simp only [zrem, zKeys] at h ⊢
  exact List.Nodup.sublist ((List.filter_sublist z).map _) h

theorem mem_saddMany_elim {ids s : List String} {d : String}
    (h : d ∈ saddMany ids s) : d ∈ ids ∨ d ∈ s := by
  induction ids generalizing s with
  | nil => right; simpa [saddMany] using h
  | cons i rest ih =>
      by_cases hi : i ∈ s
      · have h' : d ∈ saddMany rest s := by simpa [saddMany, hi] using h
        rcases ih h' with h1 | h2
        · exact Or.inl (List.mem_cons_of_mem _ h1)
        · exact Or.inr h2
      · have h' : d ∈ saddMany rest (s ++ [i]) := by simpa [saddMany, hi] using h
        rcases ih h' with h1 | h2
        · exact Or.inl (List.mem_cons_of_mem _ h1)
        · rcases List.mem_append.mp h2 with h3 | h3
          · exact Or.inr h3
          · have hdi : d = i := by simpa using h3
            exact Or.inl (by simp [hdi])

theorem failed_step (T : String) (s : QState) (op : QOp)
    (him : IdsMatch s.tasks) (hP2 : notEnqOf T op)
    (hinv : T ∉ zKeys s.zset ∨ alGet T s.tasks = none ∨
      ∃ rec, alGet T s.tasks = some rec ∧ rec.status = .failed ∧ rec.maxRetries ≤ rec.retryCount) :
    T ∉ zKeys (execOp s op).zset ∨ alGet T (execOp s op).tasks = none ∨
      ∃ rec, alGet T (execOp s op).tasks = some rec ∧ rec.status = .failed ∧
        rec.maxRetries ≤ rec.retryCount := by
  cases op with
  | enqueueOp t ds =>
      have hne : t.id ≠ T := hP2
      rcases hinv with hl | hl | ⟨rec, hrec, hst, hrc⟩
      · left
        show T ∉ zKeys ((enqueue t ds s).2).zset
        rw [enqueue_zset]
        intro hc
        exact hl ((zKeys_zadd_mem t.id T (-t.priority) s.zset (Ne.symm hne)).mp hc)
      · right; left
        show alGet T ((enqueue t ds s).2).tasks = none
        unfold enqueue
        by_cases hds : ds = [] <;> simp only [hds, if_true, if_false, reduceIte] <;>
          rw [alGet_alSet_ne _ _ (Ne.symm hne)] <;> exact hl
      · right; right
        refine ⟨rec, ?_, hst, hrc⟩
        show alGet T ((enqueue t ds s).2).tasks = some rec
        unfold enqueue
        by_cases hds : ds = [] <;> simp only [hds, if_true, if_false, reduceIte] <;>
          rw [alGet_alSet_ne _ _ (Ne.symm hne)] <;> exact hrec
  | dequeueOp now =>
      rcases hinv with hl | hl | ⟨rec, hrec, hst, hrc⟩
      · left
        show T ∉ zKeys ((dequeue now s).2).zset
        rw [dequeue_zset]
        exact hl
      · right; left
        obtain ⟨hkeep, hnout⟩ := promote_keep_none now (zKeys s.zset) s.tasks T him hl
        show alGet T ((dequeue now s).2).tasks = none
        rcases dequeue_tasks now s with h | ⟨u, hu, h⟩
        · rw [h]; exact hkeep
        · rw [h, alGet_alSet_ne _ _ (Ne.symm (hnout u hu))]; exact hkeep
      · right; right
        have h1 : rec.status ≠ QStatus.ready := by rw [hst]; intro h; cases h
        have h2 : rec.status ≠ QStatus.retrying := by rw [hst]; intro h; cases h
        obtain ⟨hkeep, hnout⟩ := promote_keep now (zKeys s.zset) s.tasks T rec him hrec h1 h2
        refine ⟨rec, ?_, hst, hrc⟩
        show alGet T ((dequeue now s).2).tasks = some rec
        rcases dequeue_tasks now s with h | ⟨u, hu, h⟩
        · rw [h]; exact hkeep
        · rw [h, alGet_alSet_ne _ _ (Ne.symm (hnout u hu))]; exact hkeep
  | peekOp now =>
      rcases hinv with hl | hl | ⟨rec, hrec, hst, hrc⟩
      · left; exact hl
      · right; left
        exact (promote_keep_none now (zKeys s.zset) s.tasks T him hl).1
      · right; right
        have h1 : rec.status ≠ QStatus.ready := by rw [hst]; intro h; cases h
        have h2 : rec.status ≠ QStatus.retrying := by rw [hst]; intro h; cases h
        exact ⟨rec, (promote_keep now (zKeys s.zset) s.tasks T rec him hrec h1 h2).1, hst, hrc⟩
  | getReadyOp now =>
      rcases hinv with hl | hl | ⟨rec, hrec, hst, hrc⟩
      · left; exact hl
      · right; left
        exact (promote_keep_none now (zKeys s.zset) s.tasks T him hl).1
      · right; right
        have h1 : rec.status ≠ QStatus.ready := by rw [hst]; intro h; cases h
        have h2 : rec.status ≠ QStatus.retrying := by rw [hst]; intro h; cases h
        exact ⟨rec, (promote_keep now (zKeys s.zset) s.tasks T rec him hrec h1 h2).1, hst, hrc⟩
  | markCompleteOp c r now =>
      by_cases hcT : c = T
      · left
        show T ∉ zKeys (markComplete c r now s).zset
        rw [markComplete_zset, zKeys_zrem_mem]
        rintro ⟨_, hne2⟩
        exact hne2 (Eq.symm hcT)
      · rcases hinv with hl | hl | ⟨rec, hrec, hst, hrc⟩
        · left
          show T ∉ zKeys (markComplete c r now s).zset
          rw [markComplete_zset, zKeys_zrem_mem]
          rintro ⟨hmem, _⟩
          exact hl hmem
        · right; left
          show alGet T (markComplete c r now s).tasks = none
          unfold markComplete resolveDependencies
          cases hgc : alGet c s.tasks with
          | none =>
              simp only
              exact resolveGo_tasks_none c T _ _ hl
          | some u =>
              simp only
              refine resolveGo_tasks_none c T _ _ ?_
              show alGet T (alSet c _ s.tasks) = none
              rw [alGet_alSet_ne _ _ (fun he => hcT (Eq.symm he))]
              exact hl
        · right; right
          have hnp : rec.status ≠ QStatus.pending := by rw [hst]; intro h; cases h
          refine ⟨rec, ?_, hst, hrc⟩
          show alGet T (markComplete c r now s).tasks = some rec
          unfold markComplete resolveDependencies
          cases hgc : alGet c s.tasks with
          | none =>
              simp only
              exact resolveGo_np c T _ _ rec hrec hnp
          | some u =>
              simp only
              refine resolveGo_np c T _ _ rec ?_ hnp
              show alGet T (alSet c _ s.tasks) = some rec
              rw [alGet_alSet_ne _ _ (fun he => hcT (Eq.symm he))]
              exact hrec
  | markFailedOp id msg now =>
      rcases hinv with hl | hl | ⟨rec, hrec, hst, hrc⟩
      · left
        show T ∉ zKeys (markFailed id msg now s).zset
        rw [markFailed_zset]
        exact hl
      · right; left
        show alGet T (markFailed id msg now s).tasks = none
        unfold markFailed
        cases hg : alGet id s.tasks with
        | none => exact hl
        | some u =>
            simp only
            by_cases hidT : id = T
            · subst hidT
              rw [hg] at hl
              cases hl
            · rw [alGet_alSet_ne _ _ (fun he => hidT he.symm)]
              exact hl
      · by_cases hidT : id = T
        · subst hidT
          have hlt : ¬ (rec.retryCount + 1 < rec.maxRetries) := by omega
          have hmf : markFailed id msg now s =
              { s with tasks := alSet id ({ rec with retryCount := rec.retryCount + 1,
                                                     status := .failed }) s.tasks,
                       herr := alSet id msg s.herr } := by
            unfold markFailed
            rw [hrec]
            simp only [if_neg hlt]
          right; right
          refine ⟨{ rec with retryCount := rec.retryCount + 1, status := .failed }, ?_, rfl, ?_⟩
          · show alGet id (markFailed id msg now s).tasks = _
            rw [hmf]
            exact alGet_alSet_self _ _ _
          · show rec.maxRetries ≤ rec.retryCount + 1
            omega
        · right; right
          refine ⟨rec, ?_, hst, hrc⟩
          show alGet T (markFailed id msg now s).tasks = some rec
          unfold markFailed
          cases hg : alGet id s.tasks with
          | none => exact hrec
          | some u =>
              simp only
              rw [alGet_alSet_ne _ _ (fun he => hidT he.symm)]
              exact hrec
  | clearOp =>
      by_cases hz : zKeys s.zset = []
      · have hcl : clear s = s := by
          unfold clear
          simp [hz]
        show T ∉ zKeys (clear s).zset ∨ alGet T (clear s).tasks = none ∨
          ∃ rec, alGet T (clear s).tasks = some rec ∧ rec.status = .failed ∧
            rec.maxRetries ≤ rec.retryCount
        rw [hcl]
        exact hinv
      · left
        show T ∉ zKeys (clear s).zset
        rw [clear_zset]
        intro hc
        simp [zKeys] at hc


theorem failed_trace (T : String) :
    ∀ (ops : List QOp) (s s' : QState),
    opSeq (fun _ op => notEnqOf T op) s ops s' →
    IdsMatch s.tasks →
    (T ∉ zKeys s.zset ∨ alGet T s.tasks = none ∨
      ∃ rec, alGet T s.tasks = some rec ∧ rec.status = .failed ∧ rec.maxRetries ≤ rec.retryCount) →
    IdsMatch s'.tasks ∧
    (T ∉ zKeys s'.zset ∨ alGet T s'.tasks = none ∨
      ∃ rec, alGet T s'.tasks = some rec ∧ rec.status = .failed ∧
        rec.maxRetries ≤ rec.retryCount) := by
  intro ops
  induction ops with
  | nil =>
      intro s s' hseq him hinv
      unfold opSeq at hseq
      subst hseq
      exact ⟨him, hinv⟩
  | cons op rest ih =>
      intro s s' hseq him hinv
      obtain ⟨h1, hrest⟩ := hseq
      exact ih (execOp s op) s' hrest (idsMatch_exec s op him) (failed_step T s op him h1 hinv)

theorem failed_not_ready (T : String) (s : QState) (him : IdsMatch s.tasks)
    (hinv : T ∉ zKeys s.zset ∨ alGet T s.tasks = none ∨
      ∃ rec, alGet T s.tasks = some rec ∧ rec.status = .failed ∧
        rec.maxRetries ≤ rec.retryCount) :
    ∀ now : Int, ∀ u ∈ (getReadyTasks now s).1, u.id ≠ T := by
  intro now u hu
  rcases hinv with hl | hl | ⟨rec, hrec, hst, _⟩
  · intro he
    apply hl
    rw [← he]
    exact promote_out_mem now (zKeys s.zset) s.tasks him u hu
  · exact (promote_keep_none now (zKeys s.zset) s.tasks T him hl).2 u hu
  · have h1 : rec.status ≠ QStatus.ready := by rw [hst]; intro h; cases h
    have h2 : rec.status ≠ QStatus.retrying := by rw [hst]; intro h; cases h
    exact (promote_keep now (zKeys s.zset) s.tasks T rec him hrec h1 h2).2 u hu

theorem pending_step (T : String) (D : List String) (s : QState) (op : QOp)
    (him : IdsMatch s.tasks)
    (hP1 : inProgressOnly s op) (hP2 : notEnqOf T op) (hP3 : notCompleteOf T op)
    (hP4 : ∀ d ∈ D, notCompleteOf d op) (hP5 : notClearOp op)
    (hinv : ∃ rec, alGet T s.tasks = some rec ∧ rec.status = .pending ∧
      (∀ d ∈ depsOf s T, d ∈ D)) :
    ∃ rec, alGet T (execOp s op).tasks = some rec ∧ rec.status = .pending ∧
      (∀ d ∈ depsOf (execOp s op) T, d ∈ D) := by
  obtain ⟨rec, hrec, hp, hsub⟩ := hinv
  cases op with
  | enqueueOp t ds =>
      have hne : t.id ≠ T := hP2
      show ∃ rec, alGet T ((enqueue t ds s).2).tasks = some rec ∧ rec.status = .pending ∧
        ∀ d ∈ depsOf ((enqueue t ds s).2) T, d ∈ D
      have hdeq : depsOf ((enqueue t ds s).2) T = depsOf s T := by
        unfold enqueue depsOf
        by_cases hds : ds = []
        · simp only [hds, if_true, reduceIte]
        · simp only [hds, if_false, reduceIte]
          rw [alGet_alSet_ne _ _ (Ne.symm hne)]
      refine ⟨rec, ?_, hp, ?_⟩
      · show alGet T ((enqueue t ds s).2).tasks = some rec
        unfold enqueue
        by_cases hds : ds = [] <;> simp only [hds, if_true, if_false, reduceIte] <;>
          rw [alGet_alSet_ne _ _ (Ne.symm hne)] <;> exact hrec
      · intro d hd
        refine hsub d ?_
        show d ∈ depsOf s T
        rw [show depsOf ((enqueue t ds s).2) T = depsOf s T from hdeq] at hd
        exact hd
  | dequeueOp now =>
      have h1 : rec.status ≠ QStatus.ready := by rw [hp]; intro h; cases h
      have h2 : rec.status ≠ QStatus.retrying := by rw [hp]; intro h; cases h
      obtain ⟨hkeep, hnout⟩ := promote_keep now (zKeys s.zset) s.tasks T rec him hrec h1 h2
      show ∃ rec, alGet T ((dequeue now s).2).tasks = some rec ∧ rec.status = .pending ∧
        ∀ d ∈ depsOf ((dequeue now s).2) T, d ∈ D
      refine ⟨rec, ?_, hp, ?_⟩
      · rcases dequeue_tasks now s with h | ⟨u, hu, h⟩
        · rw [h]; exact hkeep
        · rw [h, alGet_alSet_ne _ _ (Ne.symm (hnout u hu))]; exact hkeep
      · intro d hd
        refine hsub d ?_
        show d ∈ depsOf s T
        unfold depsOf at hd ⊢
        rw [dequeue_deps] at hd
        exact hd
  | peekOp now =>
      have h1 : rec.status ≠ QStatus.ready := by rw [hp]; intro h; cases h
      have h2 : rec.status ≠ QStatus.retrying := by rw [hp]; intro h; cases h
      exact ⟨rec, (promote_keep now (zKeys s.zset) s.tasks T rec him hrec h1 h2).1, hp, hsub⟩
  | getReadyOp now =>
      have h1 : rec.status ≠ QStatus.ready := by rw [hp]; intro h; cases h
      have h2 : rec.status ≠ QStatus.retrying := by rw [hp]; intro h; cases h
      exact ⟨rec, (promote_keep now (zKeys s.zset) s.tasks T rec him hrec h1 h2).1, hp, hsub⟩
  | markCompleteOp c r now =>
      have hcT : c ≠ T := hP3
      have hcd : c ∉ depsOf s T := fun hmem => (hP4 c (hsub c hmem)) rfl
      show ∃ rec, alGet T (markComplete c r now s).tasks = some rec ∧ rec.status = .pending ∧
        ∀ d ∈ depsOf (markComplete c r now s) T, d ∈ D
      unfold markComplete resolveDependencies
      cases hgc : alGet c s.tasks with
      | none =>
          simp only
          obtain ⟨ha, hb⟩ := resolveGo_frameT c T (zKeys (zrem c s.zset))
            ({ s with zset := zrem c s.zset, results := alSet c r s.results }) hcd
          refine ⟨rec, ?_, hp, ?_⟩
          · rw [ha]
            exact hrec
          · intro d hd
            refine hsub d ?_
            rw [hb] at hd
            exact hd
      | some u =>
          simp only
          obtain ⟨ha, hb⟩ := resolveGo_frameT c T (zKeys (zrem c s.zset))
            ({ s with tasks := alSet c ({ u with status := .completed, completedAt := some now }) s.tasks,
                      hres := alSet c r s.hres, zset := zrem c s.zset,
                      results := alSet c r s.results }) hcd
          refine ⟨rec, ?_, hp, ?_⟩
          · rw [ha]
            show alGet T (alSet c _ s.tasks) = some rec
            rw [alGet_alSet_ne _ _ (Ne.symm hcT)]
            exact hrec
          · intro d hd
            refine hsub d ?_
            rw [hb] at hd
            exact hd
  | markFailedOp id msg now =>
      by_cases hidT : id = T
      · subst hidT
        rcases hP1 with hnone | ⟨u, hu, hus⟩
        · rw [hrec] at hnone
          cases hnone
        · rw [hrec] at hu
          cases hu
          rw [hp] at hus
          cases hus
      · have hdeq : (markFailed id msg now s).deps = s.deps := by
          unfold markFailed
          cases hg : alGet id s.tasks with
          | none => rfl
          | some u => rfl
        show ∃ rec, alGet T (markFailed id msg now s).tasks = some rec ∧ rec.status = .pending ∧
          ∀ d ∈ depsOf (markFailed id msg now s) T, d ∈ D
        refine ⟨rec, ?_, hp, ?_⟩
        · unfold markFailed
          cases hg : alGet id s.tasks with
          | none => exact hrec
          | some u =>
              simp only
              rw [alGet_alSet_ne _ _ (fun he => hidT he.symm)]
              exact hrec
        · intro d hd
          refine hsub d ?_
          show d ∈ depsOf s T
          unfold depsOf at hd ⊢
          rw [hdeq] at hd
          exact hd
  | clearOp => cases hP5

theorem pending_trace (T : String) (D : List String) :
    ∀ (ops : List QOp) (s s' : QState),
    opSeq (fun st op => inProgressOnly st op ∧ notEnqOf T op ∧ notCompleteOf T op ∧
      (∀ d ∈ D, notCompleteOf d op) ∧ notClearOp op) s ops s' →
    IdsMatch s.tasks →
    (∃ rec, alGet T s.tasks = some rec ∧ rec.status = .pending ∧
      (∀ d ∈ depsOf s T, d ∈ D)) →
    IdsMatch s'.tasks ∧
    (∃ rec, alGet T s'.tasks = some rec ∧ rec.status = .pending ∧
      (∀ d ∈ depsOf s' T, d ∈ D)) := by
  intro ops
  induction ops with
  | nil =>
      intro s s' hseq him hinv
      unfold opSeq at hseq
      subst hseq
      exact ⟨him, hinv⟩
  | cons op rest ih =>
      intro s s' hseq him hinv
      obtain ⟨⟨h1, h2, h3, h4, h5⟩, hrest⟩ := hseq
      exact ih (execOp s op) s' hrest (idsMatch_exec s op him)
        (pending_step T D s op him h1 h2 h3 h4 h5 hinv)


/-- C2 (counterexample): the blocking half of the claim fails.  Task `w` is
enqueued with dependency set `{a}`; a single `markFailed` (no `markComplete`
at all) schedules a retry, and once the delay elapses `getReadyTasks` returns
`w` although its dependency was never completed.  Also, the resolution half is
narrower than claimed: after `q` (dependent on `p`) has been marked complete
and thus left the sorted set, `markComplete p` no longer removes `p` from
`q`'s still-stored dependency set, although `q` is still tracked. -/
theorem dependency_blocking_counterexample :
    (((getReadyTasks 5000 (markFailed "w" "boom" 0
        ((enqueue { id := "w", priority := 1 } ["a"] QState.empty).2))).1.map (·.id)) = ["w"]) ∧
    (let u2 := (enqueue { id := "q", priority := 1 } ["p"]
        ((enqueue { id := "p", priority := 1 } [] QState.empty).2)).2
     let u4 := markComplete "p" { taskId := "p", success := true, content := "" } 1
        (markComplete "q" { taskId := "q", success := true, content := "" } 0 u2)
     (alGet "q" u4.tasks).isSome = true ∧ depsOf u4 "q" = ["p"]) := by
  decide

/-- C2: dependency tracking.  Resolution half (true as claimed): on a
duplicate-free queue, for every id `tid` still in the sorted set other than
the completed id, `markComplete cid` removes `cid` from `tid`'s stored
dependency set, and when `tid`'s record is Pending and its dependency set
thereby becomes empty the record is set to Ready.  Blocking half (corrected):
a task enqueued with dependency list `ds ∋ d₀` is never returned by
`getReadyTasks` while no `markComplete` of `d₀` has run, provided additionally
that no operation re-enqueues the task's id and `markFailed` is only applied
to untracked or InProgress tasks — without that proviso the code promotes a
Pending task past its unmet dependencies (see the counterexample). -/
theorem dependency_blocking_spec
    (s : QState) (cid : String) (r : RResult) (now : Int)
    (hnd : NodupZ s) (tid : String) (htid : tid ∈ zKeys s.zset) (hne : tid ≠ cid)
    (s₀ : QState) (t : TaskIn) (ds : List String) (d₀ : String)
    (him : IdsMatch s₀.tasks) (hds : ds ≠ []) (hd₀ : d₀ ∈ ds)
    (ops : List QOp) (s' : QState)
    (hseq : opSeq (fun st op => inProgressOnly st op ∧ notEnqOf t.id op ∧
      (∀ d ∈ [d₀], notCompleteOf d op)) ((enqueue t ds s₀).2) ops s') :
    (depsOf (markComplete cid r now s) tid = (depsOf s tid).filter (· ≠ cid) ∧
      ∀ rec, alGet tid s.tasks = some rec → rec.status = .pending →
        cid ∈ depsOf s tid → ((depsOf s tid).filter (· ≠ cid)).length = 0 →
        alGet tid (markComplete cid r now s).tasks = some ({ rec with status := .ready })) ∧
    (∀ now' : Int, ∀ u ∈ (getReadyTasks now' s').1, u.id ≠ t.id) := by
  constructor
  · have htidm : tid ∈ zKeys (zrem cid s.zset) :=
      (zKeys_zrem_mem cid tid s.zset).mpr ⟨htid, hne⟩
    have hndz : (zKeys (zrem cid s.zset)).Nodup := nodup_zrem cid s.zset hnd
    unfold markComplete resolveDependencies
    cases hgc : alGet cid s.tasks with
    | none =>
        simp only
        obtain ⟨ha, hb⟩ := resolveGo_exact cid tid (zKeys (zrem cid s.zset))
          ({ s with zset := zrem cid s.zset, results := alSet cid r s.results }) htidm hndz
        exact ⟨ha, hb⟩
    | some u =>
        simp only
        obtain ⟨ha, hb⟩ := resolveGo_exact cid tid (zKeys (zrem cid s.zset))
          ({ s with tasks := alSet cid ({ u with status := .completed, completedAt := some now }) s.tasks,
                    hres := alSet cid r s.hres, zset := zrem cid s.zset,
                    results := alSet cid r s.results }) htidm hndz
        refine ⟨ha, ?_⟩
        intro rec hrec hp hcd hl
        refine hb rec ?_ hp hcd hl
        show alGet tid (alSet cid _ s.tasks) = some rec
        rw [alGet_alSet_ne _ _ hne]
        exact hrec
  · have him1 : IdsMatch ((enqueue t ds s₀).2).tasks := idsMatch_exec s₀ (.enqueueOp t ds) him
    have henq : alGet t.id ((enqueue t ds s₀).2).tasks =
        some ({ id := t.id, priority := t.priority, dependencies := ds,
                status := .pending, retryCount := 0, maxRetries := 3 }) := by
      unfold enqueue
      simp only [hds, if_false, reduceIte]
      exact alGet_alSet_self _ _ _
    have hdep : ∀ d ∈ [d₀], d ∈ depsOf ((enqueue t ds s₀).2) t.id := by
      intro d hd
      have hdd : d = d₀ := by simpa using hd
      subst hdd
      unfold enqueue depsOf
      simp only [hds, if_false, reduceIte]
      rw [alGet_alSet_self]
      exact mem_saddMany_of_mem_left hd₀
    obtain ⟨him2, hinv2⟩ := blocked_trace t.id [d₀] (List.cons_ne_nil d₀ []) ops
      ((enqueue t ds s₀).2) s' hseq him1 (Or.inr ⟨_, henq, rfl, hdep⟩)
    refine blocked_not_ready t.id s' him2 ?_
    rcases hinv2 with hl | ⟨rec, h1, h2, _⟩
    · exact Or.inl hl
    · exact Or.inr ⟨rec, h1, h2⟩


/-- C3: retry accounting and the terminal Failed state.  For every tracked
task, `markFailed` increments `retryCount`; while `retryCount + 1 <
maxRetries` the record becomes Retrying with `scheduledAt = now +
2^(retryCount+1) * 1000` (the code's hardcoded exponential delay), and
otherwise it becomes Failed.  Once a task whose failure count has reached
`maxRetries` is failed, then under any further operations that do not
re-enqueue its id it is never again returned by `getReadyTasks`, at any
time — in particular after any `scheduledAt` would have elapsed. -/
theorem markFailed_terminal_spec
    (s : QState) (id msg : String) (now : Int) (t : QTask)
    (hget : alGet id s.tasks = some t)
    (s₂ : QState) (id₂ msg₂ : String) (now₂ : Int) (t₂ : QTask)
    (hget₂ : alGet id₂ s₂.tasks = some t₂) (him₂ : IdsMatch s₂.tasks)
    (hmax₂ : t₂.maxRetries ≤ t₂.retryCount + 1)
    (ops : List QOp) (s' : QState)
    (hseq : opSeq (fun _ op => notEnqOf id₂ op) (markFailed id₂ msg₂ now₂ s₂) ops s') :
    (∃ t', alGet id (markFailed id msg now s).tasks = some t' ∧
      t'.retryCount = t.retryCount + 1 ∧
      (t.retryCount + 1 < t.maxRetries →
        t'.status = .retrying ∧ t'.scheduledAt = some (now + 2 ^ (t.retryCount + 1) * 1000)) ∧
      (t.maxRetries ≤ t.retryCount + 1 → t'.status = .failed)) ∧
    (∀ now' : Int, ∀ u ∈ (getReadyTasks now' s').1, u.id ≠ id₂) := by
  constructor
  · by_cases hlt : t.retryCount + 1 < t.maxRetries
    · have hmf1 : markFailed id msg now s =
          { s with tasks := alSet id ({ t with retryCount := t.retryCount + 1,
                                               status := .retrying,
                                               scheduledAt := some (now + 2 ^ (t.retryCount + 1) * 1000) }) s.tasks,
                   herr := alSet id msg s.herr } := by
        unfold markFailed
        rw [hget]
        simp only [if_pos hlt]
      rw [hmf1]
      exact ⟨_, alGet_alSet_self _ _ _, rfl, fun _ => ⟨rfl, rfl⟩,
        fun hmax => absurd hlt (by omega)⟩
    · have hmf1 : markFailed id msg now s =
          { s with tasks := alSet id ({ t with retryCount := t.retryCount + 1,
                                               status := .failed }) s.tasks,
                   herr := alSet id msg s.herr } := by
        unfold markFailed
        rw [hget]
        simp only [if_neg hlt]
      rw [hmf1]
      exact ⟨_, alGet_alSet_self _ _ _, rfl, fun hcon => absurd hcon hlt, fun _ => rfl⟩
  · have him1 : IdsMatch (markFailed id₂ msg₂ now₂ s₂).tasks :=
      idsMatch_exec s₂ (.markFailedOp id₂ msg₂ now₂) him₂
    have hlt : ¬ (t₂.retryCount + 1 < t₂.maxRetries) := by omega
    have hmf : markFailed id₂ msg₂ now₂ s₂ =
        { s₂ with tasks := alSet id₂ ({ t₂ with retryCount := t₂.retryCount + 1,
                                                status := .failed }) s₂.tasks,
                  herr := alSet id₂ msg₂ s₂.herr } := by
      unfold markFailed
      rw [hget₂]
      simp only [if_neg hlt]
    obtain ⟨him3, hinv3⟩ := failed_trace id₂ ops (markFailed id₂ msg₂ now₂ s₂) s' hseq him1
      (Or.inr (Or.inr ⟨{ t₂ with retryCount := t₂.retryCount + 1, status := .failed },
        by rw [hmf]; exact alGet_alSet_self _ _ _, rfl,
        by show t₂.maxRetries ≤ t₂.retryCount + 1; omega⟩))
    exact failed_not_ready id₂ s' him3 hinv3

/-- C9 (counterexample): a task enqueued with unmet dependencies does start
Pending, but it does not stay Pending until a `markComplete` of a listed
dependency: one `markFailed` call schedules a retry and `getReadyTasks`
later promotes and returns it although neither `p` nor `q` was ever
completed. -/
theorem pending_status_counterexample :
    (getTaskStatus "v" ((enqueue ⟨"v", 2⟩ ["p", "q"] QState.empty).2) = some .pending) ∧
    (getTaskStatus "v" ((getReadyTasks 3000 (markFailed "v" "err" 10
        ((enqueue ⟨"v", 2⟩ ["p", "q"] QState.empty).2))).2) = some .ready) ∧
    ((getReadyTasks 3000 (markFailed "v" "err" 10
        ((enqueue ⟨"v", 2⟩ ["p", "q"] QState.empty).2))).1.map (·.id) = ["v"]) := by
  decide

/-- C9 (corrected): `enqueue` with a non-empty dependency list stores the
task as Pending based solely on the list being non-empty — for every prior
state, including ones where every listed dependency is unknown or already
completed.  The task then stays Pending as long as no operation marks it or
one of its listed dependencies complete — provided additionally that no
operation re-enqueues its id, `markFailed` is only applied to untracked or
InProgress tasks, and `clear` is not called (without the `markFailed`
proviso the code promotes the Pending task, see the counterexample). -/
theorem pending_status_spec
    (s : QState) (t : TaskIn) (ds : List String) (hds : ds ≠ [])
    (s₀ : QState) (him : IdsMatch s₀.tasks) (hfresh : alGet t.id s₀.deps = none)
    (ops : List QOp) (s' : QState)
    (hseq : opSeq (fun st op => inProgressOnly st op ∧ notEnqOf t.id op ∧ notCompleteOf t.id op ∧
      (∀ d ∈ ds, notCompleteOf d op) ∧ notClearOp op) ((enqueue t ds s₀).2) ops s') :
    (∃ rec, alGet t.id ((enqueue t ds s).2).tasks = some rec ∧ rec.status = .pending) ∧
    (∃ rec, alGet t.id s'.tasks = some rec ∧ rec.status = .pending) := by
  constructor
  · refine ⟨({ id := t.id, priority := t.priority, dependencies := ds,
               status := .pending, retryCount := 0, maxRetries := 3 }), ?_, rfl⟩
    unfold enqueue
    simp only [hds, if_false, reduceIte]
    exact alGet_alSet_self _ _ _
  · have him1 : IdsMatch ((enqueue t ds s₀).2).tasks := idsMatch_exec s₀ (.enqueueOp t ds) him
    have henq : alGet t.id ((enqueue t ds s₀).2).tasks =
        some ({ id := t.id, priority := t.priority, dependencies := ds,
                status := .pending, retryCount := 0, maxRetries := 3 }) := by
      unfold enqueue
      simp only [hds, if_false, reduceIte]
      exact alGet_alSet_self _ _ _
    have hsub : ∀ d ∈ depsOf ((enqueue t ds s₀).2) t.id, d ∈ ds := by
      intro d hd
      have hd2 : d ∈ saddMany ds [] := by
        unfold enqueue depsOf at hd
        simp only [hds, if_false, reduceIte] at hd
        rw [alGet_alSet_self] at hd
        rw [hfresh] at hd
        simpa using hd
      rcases mem_saddMany_elim hd2 with h | h
      · exact h
      · cases h
    obtain ⟨him3, rec, h1, h2, _⟩ := pending_trace t.id ds ops ((enqueue t ds s₀).2) s' hseq
      him1 ⟨_, henq, rfl, hsub⟩
    exact ⟨rec, h1, h2⟩


/-- Witness for C2: a two-task queue (`x` depends on `a`) for the resolution
half, and a fresh one-dependency enqueue followed by a `getReadyTasks` step
for the blocking half. -/
theorem dependency_blocking_spec_witness :
    (NodupZ (enqueue ⟨"x", 1⟩ ["a"] (enqueue ⟨"a", 2⟩ [] QState.empty).2).2 ∧
     ("x" : String) ∈ zKeys ((enqueue ⟨"x", 1⟩ ["a"] (enqueue ⟨"a", 2⟩ [] QState.empty).2).2).zset ∧
     ("x" : String) ≠ "a" ∧
     IdsMatch (QState.empty).tasks ∧ (["d"] : List String) ≠ [] ∧ ("d" : String) ∈ ["d"]) ∧
    ((depsOf (markComplete "a" ⟨"a", true, "ok"⟩ 7
          (enqueue ⟨"x", 1⟩ ["a"] (enqueue ⟨"a", 2⟩ [] QState.empty).2).2) "x"
        = (depsOf (enqueue ⟨"x", 1⟩ ["a"] (enqueue ⟨"a", 2⟩ [] QState.empty).2).2 "x").filter (· ≠ "a") ∧
      ∀ rec, alGet "x" ((enqueue ⟨"x", 1⟩ ["a"] (enqueue ⟨"a", 2⟩ [] QState.empty).2).2).tasks = some rec →
        rec.status = .pending →
        ("a" : String) ∈ depsOf (enqueue ⟨"x", 1⟩ ["a"] (enqueue ⟨"a", 2⟩ [] QState.empty).2).2 "x" →
        ((depsOf (enqueue ⟨"x", 1⟩ ["a"] (enqueue ⟨"a", 2⟩ [] QState.empty).2).2 "x").filter (· ≠ "a")).length = 0 →
        alGet "x" (markComplete "a" ⟨"a", true, "ok"⟩ 7
          (enqueue ⟨"x", 1⟩ ["a"] (enqueue ⟨"a", 2⟩ [] QState.empty).2).2).tasks
          = some ({ rec with status := .ready })) ∧
     (∀ now' : Int, ∀ u ∈ (getReadyTasks now'
          (execOp (enqueue ⟨"T", 1⟩ ["d"] QState.empty).2 (QOp.getReadyOp 3))).1, u.id ≠ "T")) :=
  ⟨⟨by unfold NodupZ; decide, by decide, by decide,
    by unfold IdsMatch; decide, by decide, by decide⟩,
   dependency_blocking_spec (enqueue ⟨"x", 1⟩ ["a"] (enqueue ⟨"a", 2⟩ [] QState.empty).2).2
     "a" ⟨"a", true, "ok"⟩ 7 (by unfold NodupZ; decide) "x" (by decide) (by decide)
     QState.empty ⟨"T", 1⟩ ["d"] "d" (by unfold IdsMatch; decide) (by decide) (by decide)
     [QOp.getReadyOp 3] (execOp (enqueue ⟨"T", 1⟩ ["d"] QState.empty).2 (QOp.getReadyOp 3))
     ⟨⟨True.intro, True.intro, fun _ _ => True.intro⟩, rfl⟩⟩

/-- Witness for C3: first failure of a fresh InProgress task (`j`), and the
third failure of task `k` (retryCount 2, maxRetries 3) followed by a
`getReadyTasks` step. -/
theorem markFailed_terminal_spec_witness :
    (alGet "j" (QState.mk [("j", -1)] [("j", ⟨"j", 1, [], .inProgress, 0, 3, none, none, none⟩)]
        [] [] [] []).tasks = some ⟨"j", 1, [], .inProgress, 0, 3, none, none, none⟩ ∧
     alGet "k" (QState.mk [("k", -1)] [("k", ⟨"k", 1, [], .inProgress, 2, 3, none, none, none⟩)]
        [] [] [] []).tasks = some ⟨"k", 1, [], .inProgress, 2, 3, none, none, none⟩ ∧
     IdsMatch (QState.mk [("k", -1)] [("k", ⟨"k", 1, [], .inProgress, 2, 3, none, none, none⟩)]
        [] [] [] []).tasks ∧
     (3 : Nat) ≤ 2 + 1) ∧
    ((∃ t', alGet "j" (markFailed "j" "e" 100 (QState.mk [("j", -1)]
          [("j", ⟨"j", 1, [], .inProgress, 0, 3, none, none, none⟩)] [] [] [] [])).tasks = some t' ∧
       t'.retryCount = 0 + 1 ∧
       (0 + 1 < 3 → t'.status = .retrying ∧ t'.scheduledAt = some (100 + 2 ^ (0 + 1) * 1000)) ∧
       ((3 : Nat) ≤ 0 + 1 → t'.status = .failed)) ∧
     (∀ now' : Int, ∀ u ∈ (getReadyTasks now'
          (execOp (markFailed "k" "e2" 50 (QState.mk [("k", -1)]
            [("k", ⟨"k", 1, [], .inProgress, 2, 3, none, none, none⟩)] [] [] [] []))
            (QOp.getReadyOp 999999))).1, u.id ≠ "k")) :=
  ⟨⟨by decide, by decide, by unfold IdsMatch; decide, by decide⟩,
   markFailed_terminal_spec
     (QState.mk [("j", -1)] [("j", ⟨"j", 1, [], .inProgress, 0, 3, none, none, none⟩)] [] [] [] [])
     "j" "e" 100 ⟨"j", 1, [], .inProgress, 0, 3, none, none, none⟩ (by decide)
     (QState.mk [("k", -1)] [("k", ⟨"k", 1, [], .inProgress, 2, 3, none, none, none⟩)] [] [] [] [])
     "k" "e2" 50 ⟨"k", 1, [], .inProgress, 2, 3, none, none, none⟩ (by decide)
     (by unfold IdsMatch; decide) (by decide)
     [QOp.getReadyOp 999999]
     (execOp (markFailed "k" "e2" 50 (QState.mk [("k", -1)]
        [("k", ⟨"k", 1, [], .inProgress, 2, 3, none, none, none⟩)] [] [] [] []))
        (QOp.getReadyOp 999999))
     ⟨True.intro, rfl⟩⟩

/-- Witness for C9: task `W` is enqueued depending on `a` into a state where
`a` was already completed (first half), and stays Pending across a
`markFailed` of an untracked id (second half). -/
theorem pending_status_spec_witness :
    ((["a"] : List String) ≠ [] ∧
     IdsMatch (QState.empty).tasks ∧
     alGet "W" (QState.empty).deps = none) ∧
    ((∃ rec, alGet "W" ((enqueue ⟨"W", 1⟩ ["a"] (markComplete "a" ⟨"a", true, ""⟩ 0
          (enqueue ⟨"a", 1⟩ [] QState.empty).2)).2).tasks = some rec ∧ rec.status = .pending) ∧
     (∃ rec, alGet "W" ((execOp (enqueue ⟨"W", 1⟩ ["a"] QState.empty).2
          (QOp.markFailedOp "zz" "m" 4))).tasks = some rec ∧ rec.status = .pending)) :=
  ⟨⟨by decide, by unfold IdsMatch; decide, by decide⟩,
   pending_status_spec (markComplete "a" ⟨"a", true, ""⟩ 0 (enqueue ⟨"a", 1⟩ [] QState.empty).2)
     ⟨"W", 1⟩ ["a"] (by decide) QState.empty (by unfold IdsMatch; decide) (by decide)
     [QOp.markFailedOp "zz" "m" 4]
     (execOp (enqueue ⟨"W", 1⟩ ["a"] QState.empty).2 (QOp.markFailedOp "zz" "m" 4))
     ⟨⟨Or.inl (by decide), True.intro, True.intro, fun _ _ => True.intro, True.intro⟩, rfl⟩⟩

end Orchestrator
